import Mathlib

/-
Verification of the Huffman file compressor (src/huffman.c, src/huffman.h).

The development shallowly embeds the C code:
* `CTree` models `HuffmanNode*` pointers, with a `nil` constructor for NULL.
* The array-backed min-heap (`MinHeap`) is modelled as a `List CTree`
  (index 0 is the root); `siftUp`, `minHeapifyF`, `insertMinHeap` and
  `extractMin` mirror the C functions of the same names.
* Machine integers: the `unsigned int` frequency counters and the `uint32_t`
  header fields wrap modulo 2^32; the `int` byte counter of
  `calculateFrequencies` is modeled by its two's-complement bit pattern
  (the counted length modulo 2^32, negative exactly when that pattern is at
  least 2^31); bytes are naturals below 256.
* File contents are `List Nat` (byte values); bit streams are `List Bool`.
* `compressFile` returns `Option Archive` (`none` models the C `-1` error
  return, in which case nothing has been written to the output file), and
  `decompressFile` consumes the raw bytes of the compressed file and returns
  a `DResult` (`err` models the `-1` return before the output file is opened,
  `ok out` models the `0` return with output file contents `out`, and `crash`
  marks a NULL-pointer dereference, i.e. undefined behavior, in the decoder).
-/

set_option maxHeartbeats 1000000

namespace Huffman

/-- `HuffmanNode` from huffman.h: character, frequency and two child pointers.
`nil` models the C NULL pointer; a leaf is a node with two NULL children. -/
inductive CTree where
  | nil : CTree
  | mk (character : Nat) (frequency : Nat) (left : CTree) (right : CTree) : CTree
deriving DecidableEq, Repr

namespace CTree

/-- Reading `node->frequency`; never applied to `nil` by the modelled code. -/
def freq : CTree → Nat
  | nil => 0
  | mk _ f _ _ => f

/-- Reading `node->character`. -/
def chr : CTree → Nat
  | nil => 0
  | mk c _ _ _ => c

end CTree

open CTree

/-- Sift-up loop of `insertMinHeap` (huffman.c lines 148-153): starting from
hole index `i`, parents strictly greater than the new node's frequency are
moved down, and the node is finally stored at the stopping index. -/
def siftUp (l : List CTree) (x : CTree) (i : Nat) : List CTree :=
  if i = 0 then l.set 0 x
  else if x.freq < (l.getD ((i - 1) / 2) .nil).freq then
    siftUp (l.set i (l.getD ((i - 1) / 2) .nil)) x ((i - 1) / 2)
  else l.set i x
termination_by i
decreasing_by omega

/-- `insertMinHeap` (huffman.c lines 138-154): when the heap is full the node
is dropped (the C code prints an error and returns); otherwise the size grows
by one and the node is sifted up from the new last slot. -/
def insertMinHeap (cap : Nat) (l : List CTree) (x : CTree) : List CTree :=
  if cap ≤ l.length then l else siftUp (l ++ [x]) x l.length

/-- `minHeapify` (huffman.c lines 87-109), with explicit fuel (the recursion
depth is bounded by the heap size, and every call below supplies enough
fuel): picks the smallest of node `i` and its two children, swaps and
recurses when a child is strictly smaller. -/
def minHeapifyF : Nat → List CTree → Nat → List CTree
  | 0, l, _ => l
  | fuel + 1, l, i =>
    let li := 2 * i + 1
    let ri := 2 * i + 2
    let s1 := if li < l.length ∧ (l.getD li .nil).freq < (l.getD i .nil).freq then li else i
    let s2 := if ri < l.length ∧ (l.getD ri .nil).freq < (l.getD s1 .nil).freq then ri else s1
    if s2 = i then l
    else minHeapifyF fuel ((l.set i (l.getD s2 .nil)).set s2 (l.getD i .nil)) s2

/-- `extractMin` (huffman.c lines 116-131): returns NULL (`none`) on an empty
heap; otherwise returns the root, moves the last element to the front,
shrinks the heap and restores the heap shape with `minHeapify`. -/
def extractMin (h : List CTree) : Option (CTree × List CTree) :=
  match h with
  | [] => none
  | [r] => some (r, [])
  | r :: rest =>
    let h2 := (rest.getLast?.getD .nil) :: rest.dropLast
    some (r, minHeapifyF h2.length h2 0)

/-- Specification helper for the heap analysis: the earliest element of
`x :: l` attaining the minimum frequency (the fold keeps the earlier element
on ties, mirroring the strict `<` comparisons of the C heap). -/
def firstMin (x : CTree) (l : List CTree) : CTree :=
  l.foldl (fun r y => if y.freq < r.freq then y else r) x

/-- Tree-building loop of `buildHuffmanTree` (huffman.c lines 257-279): while
more than one node remains, extract the two minimum nodes, merge them under
a fresh internal node (character 0, frequency the `unsigned` sum), and insert
the merged node back.  `none` models the C error path when an extraction
fails.  The recursion is fuelled; every iteration shrinks the heap, so the
initial heap size (supplied by `buildLoop` below) is always enough fuel. -/
def buildLoopF (cap : Nat) : Nat → List CTree → Option (List CTree)
  | 0, h => some h
  | fuel + 1, h =>
    if h.length ≤ 1 then some h
    else
      match extractMin h with
      | none => none
      | some (a, h1) =>
        match extractMin h1 with
        | none => none
        | some (b, h2) =>
          buildLoopF cap fuel (insertMinHeap cap h2 (.mk 0 ((a.freq + b.freq) % 2 ^ 32) a b))

/-- The `while (heap->size > 1)` loop, entered with fuel equal to the heap
size. -/
def buildLoop (cap : Nat) (h : List CTree) : Option (List CTree) :=
  buildLoopF cap h.length h

/-- The characters with nonzero frequency, in ascending order, as scanned by
the `for (i = 0; i < ASCII_SIZE; i++) if (frequencies[i] > 0)` loops. -/
def presentList (f : Nat → Nat) : List Nat :=
  (List.range 256).filter (fun i => 0 < f i)

/-- `buildHuffmanTree` (huffman.c lines 214-287).  Zero distinct symbols is an
error; one distinct symbol yields a root (character 0) whose only child is the
single leaf; otherwise the leaves are inserted in ascending symbol order into
a heap of capacity `uniqueChars` and merged by `buildLoop`. -/
def buildHuffmanTree (f : Nat → Nat) : Option CTree :=
  let u := (presentList f).length
  if u = 0 then none
  else if u = 1 then
    match presentList f with
    | [] => none
    | c :: _ => some (.mk 0 (f c) (.mk c (f c) .nil .nil) .nil)
  else
    let h0 := (presentList f).foldl (fun h c => insertMinHeap u h (.mk c (f c) .nil .nil)) []
    match buildLoop u h0 with
    | none => none
    | some h' =>
      match extractMin h' with
      | none => none
      | some (r, _) => some r

/-- The list of (symbol, code) pairs produced by the depth-first traversal of
`generateCodes` (huffman.c lines 300-322), in traversal order: a left edge
appends bit 0 (`false`), a right edge bit 1 (`true`), and a node with two
NULL children records the accumulated code for its character.  NULL children
are skipped exactly as in the C code. -/
def paths : CTree → List (Nat × List Bool)
  | .nil => []
  | .mk c _ .nil .nil => [(c, [])]
  | .mk _ _ l r =>
    ((paths l).map fun p => (p.1, false :: p.2)) ++ ((paths r).map fun p => (p.1, true :: p.2))

/-- `buildCodeTable` (huffman.c lines 329-350): the 256-entry code table,
modelled as a function from symbol to its bit string (empty = length 0 for
absent symbols).  A root that is itself a leaf gets the special code "0";
otherwise the traversal's assignments are replayed in order (later
assignments overwrite earlier ones, as the C array writes do). -/
def codeTable (root : CTree) : Nat → List Bool :=
  match root with
  | .nil => fun _ => []
  | .mk c _ .nil .nil => fun x => if x = c then [false] else []
  | _ => (paths root).foldl (fun tbl p => fun x => if x = p.1 then p.2 else tbl x) (fun _ => [])

/-- The characters at the leaves (nodes with two NULL children) of a tree,
in left-to-right traversal order. -/
def leafChars : CTree → List Nat
  | .nil => []
  | .mk c _ .nil .nil => [c]
  | .mk _ _ l r => leafChars l ++ leafChars r

/-- Structural well-formedness of the trees the merge loop builds: a leaf, or
an internal node with two non-NULL well-formed children (every merged node
has two children; only the single-symbol special case, handled separately,
produces a node with exactly one child). -/
def wfFull : CTree → Prop
  | .nil => False
  | .mk _ _ .nil .nil => True
  | .mk _ _ l r => l ≠ .nil ∧ r ≠ .nil ∧ wfFull l ∧ wfFull r

/-- Executable prefix test on bit strings. -/
def isPrefB : List Bool → List Bool → Bool
  | [], _ => true
  | _ :: _, [] => false
  | a :: p, b :: q => a == b && isPrefB p q

/-- Character frequencies of the input bytes, as computed by
`calculateFrequencies` (huffman.c lines 175-203); the counters are C
`unsigned int`, hence the reduction modulo 2^32. -/
def countFreq (x : List Nat) : Nat → Nat :=
  fun c => (x.count c) % 2 ^ 32

/-- Bit emission order of `encodeAndWrite` (huffman.c lines 443-465): each
input byte contributes the bits of its code; a byte whose code has length 0
is skipped (the C `continue`), i.e. contributes no bits. -/
def encodeBits (tbl : Nat → List Bool) (x : List Nat) : List Bool :=
  x.flatMap tbl

/-- The value of the byte with the given (up to 8) bits, most significant
first, as accumulated by `writeBit` (huffman.c lines 362-371). -/
def byteOfBits (bs : List Bool) : Nat :=
  bs.foldl (fun a b => 2 * a + (if b then 1 else 0)) 0

/-- Packing a bit stream into bytes: full groups of 8 bits are emitted by
`writeBit`; `flushBits` (huffman.c lines 378-383) left-aligns a trailing
partial group, zero-padding its low-order bits. -/
def bitsToBytes (bs : List Bool) : List Nat :=
  if bs = [] then []
  else byteOfBits (bs.take 8 ++ List.replicate (8 - bs.length) false) :: bitsToBytes (bs.drop 8)
termination_by bs.length
decreasing_by
  rename_i h
  have : bs.length ≠ 0 := fun hz => h (List.eq_nil_of_length_eq_zero hz)
  simp only [List.length_drop]
  omega

/-- The 8 bits of one byte, most significant first, as consumed by `readBit`
(huffman.c lines 392-404). -/
def bitsOfByte (n : Nat) : List Bool :=
  [n.testBit 7, n.testBit 6, n.testBit 5, n.testBit 4,
   n.testBit 3, n.testBit 2, n.testBit 1, n.testBit 0]

/-- The bit stream obtained by reading a byte list with `readBit`. -/
def bytesToBits (l : List Nat) : List Bool :=
  l.flatMap bitsOfByte

/-- Decoding loop of `decodeAndWrite` (huffman.c lines 619-641), faithful to
the statement order of the C loop body.  `none` marks undefined behavior:
after `currentNode = currentNode->left/right` the C code immediately reads
`currentNode->left` for the leaf test, dereferencing NULL when the descent
fell off the tree (the `if (!currentNode)` check sits after that read). -/
def decodeLoop (root cur : CTree) (bits : List Bool) (remaining : Nat) (acc : List Nat) :
    Option (List Nat) :=
  match remaining, bits with
  | 0, _ => some acc.reverse
  | _ + 1, [] => some acc.reverse
  | r + 1, b :: rest =>
    match cur with
    | .nil => none
    | .mk _ _ cl cr =>
      match (if b then cr else cl) with
      | .nil => none
      | .mk ch f gl gr =>
        if gl = .nil ∧ gr = .nil then
          match root with
          | .nil => some (ch :: acc).reverse
          | _ => decodeLoop root root rest r (ch :: acc)
        else decodeLoop root (.mk ch f gl gr) rest (r + 1) acc

/-- `decodeAndWrite` (huffman.c lines 610-642).  The `paddingBits` parameter
is accepted and ignored, exactly as in the C code. -/
def decodeAndWrite (root : CTree) (bits : List Bool) (originalSize : Nat)
    (paddingBits : Nat) : Option (List Nat) :=
  match root with
  | .nil => some []
  | _ => decodeLoop root root bits originalSize []

/-- `MAGIC_NUMBER` from huffman.h. -/
def MAGIC : Nat := 0x48554646

/-- The four bytes of a `uint32_t` value as written by `fwrite` on a
little-endian host. -/
def u32le (n : Nat) : List Nat :=
  [n % 256, n / 256 % 256, n / 65536 % 256, n / 16777216 % 256]

/-- The `uint32_t` value read back from four bytes. -/
def readU32 (bs : List Nat) : Nat :=
  bs.getD 0 0 + 256 * bs.getD 1 0 + 65536 * bs.getD 2 0 + 16777216 * bs.getD 3 0

/-- The in-memory result of `compressFile`: the final header fields (after
the seek-back rewrite), the frequency table and the bit-packed payload. -/
structure Archive where
  originalSize : Nat
  compressedSize : Nat
  frequencyCount : Nat
  paddingBits : Nat
  freqTable : Nat → Nat
  payload : List Nat

/-- The frequency-table section written by `writeFrequencies` (huffman.c
lines 428-435): for each symbol 0..255 with nonzero count, the symbol byte
followed by the four bytes of its count. -/
def freqBytes (f : Nat → Nat) : List Nat :=
  (List.range 256).flatMap fun i => if 0 < f i then i :: u32le (f i) else []

/-- The complete byte contents of the compressed file: header (written by
`writeFileHeader`, huffman.c lines 415-421), frequency table, payload. -/
def fileBytes (a : Archive) : List Nat :=
  u32le MAGIC ++ u32le a.originalSize ++ u32le a.compressedSize ++
    u32le a.frequencyCount ++ [a.paddingBits] ++ freqBytes a.freqTable ++ a.payload

/-- `compressFile` (huffman.c lines 473-546).  `calculateFrequencies` counts
the input bytes in a C `int` (huffman.c line 186), modeled with its
two's-complement bit pattern `x.length % 2^32`: a zero count is rejected as
the empty-input error (line 196), and a count whose bit pattern is at least
2^31 is a negative `int`, rejected by the `originalSize < 0` check
(line 481) — both before anything is written.  A tree-build failure also
aborts.  On success the header carries the `uint32_t` casts of the sizes,
`padding_bits` is the constant 0 (never computed), and the payload is the
flushed bit stream. -/
def compressFile (x : List Nat) : Option Archive :=
  if x.length % 2 ^ 32 = 0 then none
  else if 2 ^ 31 ≤ x.length % 2 ^ 32 then none
  else
    let f := countFreq x
    match buildHuffmanTree f with
    | none => none
    | some root =>
      let payload := bitsToBytes (encodeBits (codeTable root) x)
      some { originalSize := x.length % 2 ^ 32
             compressedSize := payload.length % 2 ^ 32
             frequencyCount := (presentList f).length
             paddingBits := 0
             freqTable := f
             payload := payload }

/-- Outcome of `decompressFile`: `err` models the `-1` return taken before
the output file is opened, `ok out` the `0` return with output contents
`out`, and `crash` a NULL dereference inside `decodeAndWrite`. -/
inductive DResult where
  | crash : DResult
  | err : DResult
  | ok (out : List Nat) : DResult
deriving DecidableEq, Repr

/-- `readFileHeader` (huffman.c lines 558-573): five consecutive `fread`s
(17 bytes total; any shortfall fails), then the magic check. -/
def parseHeader (bs : List Nat) : Option (Nat × Nat × Nat × Nat × Nat × List Nat) :=
  if bs.length < 17 then none
  else some (readU32 (bs.take 4), readU32 ((bs.drop 4).take 4),
             readU32 ((bs.drop 8).take 4), readU32 ((bs.drop 12).take 4),
             bs.getD 16 0, bs.drop 17)

/-- `readFrequencies` (huffman.c lines 582-600): starting from the zeroed
table, read `count` (symbol, count) pairs of 1+4 bytes; any shortfall fails. -/
def parseFreqs : Nat → List Nat → (Nat → Nat) → Option ((Nat → Nat) × List Nat)
  | 0, bs, f => some (f, bs)
  | n + 1, bs, f =>
    match bs with
    | c :: b0 :: b1 :: b2 :: b3 :: rest =>
      parseFreqs n rest (fun x => if x = c then readU32 [b0, b1, b2, b3] else f x)
    | _ => none

/-- `decompressFile` (huffman.c lines 650-705): parse the header (rejecting a
bad magic), read the frequency table, rebuild the tree — all before the
output file is opened — then decode the remaining bytes.  The
`compressed_size` field is read but never used, and the result is `ok`
whenever `decodeAndWrite` returns, regardless of how many bytes it decoded. -/
def decompressFile (bs : List Nat) : DResult :=
  match parseHeader bs with
  | none => .err
  | some (magic, osize, _csize, fcount, pad, rest) =>
    if magic ≠ MAGIC then .err
    else
      match parseFreqs fcount rest (fun _ => 0) with
      | none => .err
      | some (f, rest') =>
        match buildHuffmanTree f with
        | none => .err
        | some root =>
          match decodeAndWrite root (bytesToBits rest') osize pad with
          | none => .crash
          | some out => .ok out

/-! ### Basic length and shape lemmas for the heap operations -/

theorem siftUp_length (l : List CTree) (x : CTree) (i : Nat) :
    (siftUp l x i).length = l.length := by
  induction i using Nat.strong_induction_on generalizing l with
  | _ i ih =>
    rw [siftUp]
    split
    · simp
    · split
      · rw [ih ((i - 1) / 2) (by omega)]
        simp
      · simp

theorem minHeapifyF_length (fuel : Nat) (l : List CTree) (i : Nat) :
    (minHeapifyF fuel l i).length = l.length := by
  induction fuel generalizing l i with
  | zero => rfl
  | succ n ih =>
    rw [minHeapifyF]
    repeat' split
    all_goals first
      | rfl
      | (rw [ih]; simp)

theorem extractMin_length {h : List CTree} {r : CTree} {h' : List CTree}
    (he : extractMin h = some (r, h')) : h'.length + 1 = h.length := by
  match h with
  | [] => simp [extractMin] at he
  | [a] =>
    simp only [extractMin, Option.some.injEq, Prod.mk.injEq] at he
    rw [← he.2]
    simp
  | a :: b :: rest =>
    simp only [extractMin, Option.some.injEq, Prod.mk.injEq] at he
    rw [← he.2, minHeapifyF_length]
    simp

theorem insertMinHeap_length_le (cap : Nat) (l : List CTree) (x : CTree) :
    (insertMinHeap cap l x).length ≤ l.length + 1 := by
  unfold insertMinHeap
  split
  · omega
  · rw [siftUp_length]
    simp

/-! ### Indexed access lemmas -/

theorem getD_set_self (l : List CTree) (i : Nat) (a d : CTree) (h : i < l.length) :
    (l.set i a).getD i d = a := by
  rw [List.getD_eq_getElem?_getD, List.getElem?_set_self', List.getElem?_eq_getElem h]
  rfl

theorem getD_set_ne (l : List CTree) {i j : Nat} (a d : CTree) (h : i ≠ j) :
    (l.set i a).getD j d = l.getD j d := by
  rw [List.getD_eq_getElem?_getD, List.getElem?_set_ne h, List.getD_eq_getElem?_getD]

theorem getD_mem (l : List CTree) (i : Nat) (d : CTree) (h : i < l.length) :
    l.getD i d ∈ l := by
  rw [List.getD_eq_getElem l d h]
  exact List.getElem_mem h

/-! ### Sift-up analysis (claim C2): root tracking under insertions -/

theorem siftUp_mem {l : List CTree} {x y : CTree} {i : Nat} (hi : i < l.length)
    (hy : y ∈ siftUp l x i) : y = x ∨ y ∈ l := by
  induction i using Nat.strong_induction_on generalizing l with
  | _ i ih =>
    rw [siftUp] at hy
    split at hy
    · rcases List.mem_or_eq_of_mem_set hy with h | h
      · exact Or.inr h
      · exact Or.inl h
    · split at hy
      · rcases ih ((i - 1) / 2) (by omega) (by simp only [List.length_set]; omega) hy with h | h
        · exact Or.inl h
        · rcases List.mem_or_eq_of_mem_set h with h' | h'
          · exact Or.inr h'
          · subst h'
            exact Or.inr (getD_mem l _ _ (by omega))
      · rcases List.mem_or_eq_of_mem_set hy with h | h
        · exact Or.inr h
        · exact Or.inl h

theorem siftUp_root_lt {l : List CTree} {x : CTree} {i : Nat} (hi : i < l.length)
    (hall : ∀ j, j < l.length → j ≠ i → x.freq < (l.getD j .nil).freq) :
    (siftUp l x i).getD 0 .nil = x := by
  induction i using Nat.strong_induction_on generalizing l with
  | _ i ih =>
    rw [siftUp]
    split
    · rename_i h0
      exact getD_set_self l 0 x .nil (by omega)
    · rename_i h0
      rw [if_pos (hall ((i - 1) / 2) (by omega) (by omega))]
      apply ih ((i - 1) / 2) (by omega) (by simp only [List.length_set]; omega)
      intro j hj hne
      by_cases hji : j = i
      · rw [hji, getD_set_self l i _ .nil (by omega)]
        exact hall ((i - 1) / 2) (by omega) (by omega)
      · rw [getD_set_ne l _ .nil (fun h => hji h.symm)]
        exact hall j (by simpa using hj) hji

theorem siftUp_root_ge {l : List CTree} {x : CTree} {i : Nat} (h0 : i ≠ 0)
    (hge : (l.getD 0 .nil).freq ≤ x.freq) :
    (siftUp l x i).getD 0 .nil = l.getD 0 .nil := by
  induction i using Nat.strong_induction_on generalizing l with
  | _ i ih =>
    rw [siftUp]
    rw [if_neg h0]
    split
    · rename_i hlt
      by_cases hpi : (i - 1) / 2 = 0
      · rw [hpi] at hlt
        exact absurd hlt (by omega)
      · have hset : (l.set i (l.getD ((i - 1) / 2) .nil)).getD 0 .nil = l.getD 0 .nil :=
          getD_set_ne l _ .nil h0
        rw [ih ((i - 1) / 2) (by omega) hpi (by rw [hset]; exact hge), hset]
    · exact getD_set_ne l _ .nil h0

theorem firstMin_le (x : CTree) (l : List CTree) :
    (firstMin x l).freq ≤ x.freq ∧ ∀ y ∈ l, (firstMin x l).freq ≤ y.freq := by
  induction l generalizing x with
  | nil => simp [firstMin]
  | cons y t ih =>
    constructor
    · by_cases h : y.freq < x.freq
      · have e : firstMin x (y :: t) = firstMin y t := by simp [firstMin, h]
        rw [e]
        exact le_trans (ih y).1 (le_of_lt h)
      · have e : firstMin x (y :: t) = firstMin x t := by simp [firstMin, h]
        rw [e]
        exact (ih x).1
    · intro z hz
      simp only [List.mem_cons] at hz
      by_cases h : y.freq < x.freq
      · have e : firstMin x (y :: t) = firstMin y t := by simp [firstMin, h]
        rw [e]
        rcases hz with rfl | hz
        · exact (ih z).1
        · exact (ih y).2 z hz
      · have e : firstMin x (y :: t) = firstMin x t := by simp [firstMin, h]
        rw [e]
        rcases hz with rfl | hz
        · exact le_trans (ih x).1 (by omega)
        · exact (ih x).2 z hz

theorem firstMin_le_mem {x z : CTree} {l : List CTree} (hz : z ∈ x :: l) :
    (firstMin x l).freq ≤ z.freq := by
  rcases List.mem_cons.mp hz with rfl | hz
  · exact (firstMin_le z l).1
  · exact (firstMin_le x l).2 z hz

theorem firstMin_split (x : CTree) (l : List CTree) :
    ∃ l1 l2, x :: l = l1 ++ firstMin x l :: l2 ∧
      ∀ y ∈ l1, (firstMin x l).freq < y.freq := by
  induction l generalizing x with
  | nil => exact ⟨[], [], rfl, by simp⟩
  | cons y t ih =>
    by_cases h : y.freq < x.freq
    · have e : firstMin x (y :: t) = firstMin y t := by simp [firstMin, h]
      obtain ⟨l1, l2, he, hs⟩ := ih y
      refine ⟨x :: l1, l2, ?_, ?_⟩
      · rw [e, List.cons_append, ← he]
      · rw [e]
        intro z hz
        rcases List.mem_cons.mp hz with rfl | hz
        · exact lt_of_le_of_lt (firstMin_le y t).1 h
        · exact hs z hz
    · have e : firstMin x (y :: t) = firstMin x t := by simp [firstMin, h]
      obtain ⟨l1, l2, he, hs⟩ := ih x
      match l1, he, hs with
      | [], he, _ =>
        simp only [List.nil_append, List.cons.injEq] at he
        refine ⟨[], y :: t, ?_, by simp⟩
        rw [e, ← he.1]
        simp
      | x1 :: l1', he, hs =>
        simp only [List.cons_append, List.cons.injEq] at he
        obtain ⟨hx1, ht⟩ := he
        have hfx : (firstMin x t).freq < x.freq := by
          have hx := hs x1 (by simp)
          rw [← hx1] at hx
          exact hx
        refine ⟨x :: y :: l1', l2, ?_, ?_⟩
        · rw [e]
          conv_lhs => rw [ht]
          simp
        · rw [e]
          intro z hz
          rcases List.mem_cons.mp hz with rfl | hz
          · exact hfx
          · rcases List.mem_cons.mp hz with rfl | hz
            · exact lt_of_lt_of_le hfx (Nat.le_of_not_lt h)
            · exact hs z (by simp [hz])

theorem insert_fold_spec (cap : Nat) (t : List CTree) (x : CTree) :
    (x :: t).length ≤ cap →
      ((x :: t).foldl (insertMinHeap cap) []).length = (x :: t).length ∧
      (∀ y ∈ (x :: t).foldl (insertMinHeap cap) [], y ∈ x :: t) ∧
      ((x :: t).foldl (insertMinHeap cap) []).getD 0 .nil = firstMin x t := by
  induction t using List.reverseRecOn with
  | nil =>
    intro hcap
    have h1 : insertMinHeap cap [] x = [x] := by
      unfold insertMinHeap
      rw [if_neg (by simp at hcap ⊢; omega)]
      rw [siftUp]
      simp
    simp [h1, firstMin]
  | append_singleton t z ih =>
    intro hcap
    have hle : (x :: t).length ≤ cap := by
      simp at hcap ⊢
      omega
    obtain ⟨ihlen, ihmem, ihroot⟩ := ih hle
    have hfold : (x :: (t ++ [z])).foldl (insertMinHeap cap) [] =
        insertMinHeap cap ((x :: t).foldl (insertMinHeap cap) []) z := by
      rw [show x :: (t ++ [z]) = (x :: t) ++ [z] from rfl, List.foldl_append]
      rfl
    set H := (x :: t).foldl (insertMinHeap cap) [] with hH
    have hHlen : H.length < cap := by
      rw [ihlen]
      simp at hcap ⊢
      omega
    have hins : insertMinHeap cap H z = siftUp (H ++ [z]) z H.length := by
      unfold insertMinHeap
      rw [if_neg (by omega)]
    have hHpos : 0 < H.length := by
      rw [ihlen]
      simp
    have hfm : firstMin x (t ++ [z]) =
        if z.freq < (firstMin x t).freq then z else firstMin x t := by
      unfold firstMin
      rw [List.foldl_append]
      rfl
    have hmemH : ∀ y ∈ siftUp (H ++ [z]) z H.length, y ∈ x :: (t ++ [z]) := by
      intro y hy
      rcases siftUp_mem (by simp) hy with rfl | hy2
      · simp
      · rcases List.mem_append.mp hy2 with hy3 | hy3
        · rcases List.mem_cons.mp (ihmem y hy3) with rfl | hy4
          · simp
          · simp [hy4]
        · simp at hy3
          simp [hy3]
    refine ⟨?_, ?_, ?_⟩
    · rw [hfold, hins, siftUp_length]
      simp [ihlen]
    · rw [hfold, hins]
      exact hmemH
    · rw [hfold, hins, hfm]
      by_cases hz : z.freq < (firstMin x t).freq
      · rw [if_pos hz]
        apply siftUp_root_lt (by simp)
        intro j hj hne
        have hjH : j < H.length := by
          simp at hj
          omega
        rw [List.getD_append _ _ _ _ hjH]
        have : H.getD j .nil ∈ x :: t := ihmem _ (getD_mem H j .nil hjH)
        exact lt_of_lt_of_le hz (firstMin_le_mem this)
      · rw [if_neg hz]
        have h0 : (H ++ [z]).getD 0 .nil = firstMin x t := by
          rw [List.getD_append _ _ _ _ hHpos]
          exact ihroot
        rw [siftUp_root_ge (by omega) (by rw [h0]; omega), h0]

theorem extractMin_head {H : List CTree} (h : H ≠ []) :
    ∃ h', extractMin H = some (H.getD 0 .nil, h') := by
  match H with
  | [] => exact absurd rfl h
  | [a] => exact ⟨[], rfl⟩
  | a :: b :: r => exact ⟨_, rfl⟩

/-! ### Claim C2: extractMin returns the earliest-inserted minimum -/

/-- C2: for every sequence of `insertMinHeap` calls (into a heap whose
capacity accommodates them, as `buildHuffmanTree` always arranges),
`extractMin` returns a stored node of minimum weight, and among the stored
nodes sharing that minimum weight it is the earliest inserted: every node
inserted before it has strictly greater weight.  The strict `<` comparison
in the sift-up loop means an equal-weight newcomer never displaces the
incumbent root. -/
theorem claim2_extract_earliest_min (l : List CTree) (hl : l ≠ []) :
    ∃ r h', extractMin (l.foldl (insertMinHeap l.length) []) = some (r, h') ∧
      (∀ y ∈ l, r.freq ≤ y.freq) ∧
      ∃ pre post, l = pre ++ r :: post ∧ ∀ y ∈ pre, r.freq < y.freq := by
  match l, hl with
  | x :: t, _ =>
    obtain ⟨hlen, hmem, hroot⟩ := insert_fold_spec (x :: t).length t x (le_refl _)
    have hne : (x :: t).foldl (insertMinHeap (x :: t).length) [] ≠ [] := by
      intro h
      rw [h] at hlen
      simp at hlen
    obtain ⟨h', hex⟩ := extractMin_head hne
    rw [hroot] at hex
    refine ⟨firstMin x t, h', hex, ?_, ?_⟩
    · intro y hy
      exact firstMin_le_mem hy
    · exact firstMin_split x t

/-- Witness for C2: three insertions of weights 2, 1, 3; the extracted root
is the weight-1 node at position 1, and the single earlier node has strictly
greater weight. -/
theorem claim2_witness :
    ([CTree.mk 10 2 .nil .nil, CTree.mk 11 1 .nil .nil, CTree.mk 12 3 .nil .nil] ≠
        ([] : List CTree)) ∧
      ∃ r h',
        extractMin (([CTree.mk 10 2 .nil .nil, CTree.mk 11 1 .nil .nil,
              CTree.mk 12 3 .nil .nil]).foldl
            (insertMinHeap ([CTree.mk 10 2 .nil .nil, CTree.mk 11 1 .nil .nil,
              CTree.mk 12 3 .nil .nil]).length) []) = some (r, h') ∧
          (∀ y ∈ [CTree.mk 10 2 .nil .nil, CTree.mk 11 1 .nil .nil,
              CTree.mk 12 3 .nil .nil], r.freq ≤ y.freq) ∧
          ∃ pre post,
            [CTree.mk 10 2 .nil .nil, CTree.mk 11 1 .nil .nil, CTree.mk 12 3 .nil .nil] =
              pre ++ r :: post ∧ ∀ y ∈ pre, r.freq < y.freq :=
  ⟨by decide, claim2_extract_earliest_min _ (by decide)⟩

/-! ### Claim C7: empty input -/

/-- C7: compressing a zero-length input fails (`calculateFrequencies` reports
the empty-input error before the output file is even opened), so no archive
bytes whatsoever are produced. -/
theorem claim7_empty_input_rejected : compressFile [] = none := rfl

/-! ### Claim C3: decoder behavior on a desynchronized stream -/

/-- C3 (refuting theorem): on a compressed file for the single byte `A` whose
payload byte was corrupted to `0x80`, the first decoded bit is 1, the descent
moves to the NULL right child, and the very next statement of
`decodeAndWrite` reads `currentNode->left` — a NULL dereference (`crash`),
not the stream-desynchronization error report the claim describes (that
`if (!currentNode)` check is unreachable because it comes after the read). -/
theorem claim3_decoder_null_deref :
    decompressFile
      (u32le MAGIC ++ u32le 1 ++ u32le 1 ++ u32le 1 ++ [0] ++ [65] ++ u32le 1 ++ [128]) =
      DResult.crash := by decide

/-! ### Claim C4: the padding_bits field is constant 0 and never used -/

/-- C4: `compressFile` always stores `padding_bits = 0` (the field is never
computed from the real pad-bit count), and `decodeAndWrite` ignores its
`paddingBits` argument entirely: decoding with any two values of the field
produces identical output. -/
theorem claim4_padding_constant_and_unused :
    (∀ (x : List Nat) (a : Archive), compressFile x = some a → a.paddingBits = 0) ∧
    (∀ (root : CTree) (bits : List Bool) (n p p' : Nat),
      decodeAndWrite root bits n p = decodeAndWrite root bits n p') := by
  constructor
  · intro x a h
    unfold compressFile at h
    split at h
    · cases h
    · split at h
      · cases h
      · dsimp only at h
        split at h
        · cases h
        · cases h
          rfl
  · intro root bits n p p'
    cases root <;> rfl

/-- Witness for C4 at the concrete input `[65]` and a concrete decoder
state. -/
theorem claim4_witness :
    (compressFile [65]).map Archive.paddingBits = some 0 ∧
      decodeAndWrite .nil [true] 1 0 = decodeAndWrite .nil [true] 1 5 := by
  constructor
  · obtain ⟨a, ha⟩ : ∃ a, compressFile [65] = some a := ⟨_, rfl⟩
    rw [ha, Option.map_some']
    rw [claim4_padding_constant_and_unused.1 [65] a ha]
  · exact claim4_padding_constant_and_unused.2 .nil [true] 1 0 5

/-! ### Claim C10: truncated payload ends decoding silently with success -/

/-- C10: when the bit stream is exhausted before `original_size` bytes have
been decoded, `readBit` returns -1 and the loop simply breaks (first
conjunct: an empty payload decodes to an empty output, with no error
marker), and `decompressFile` still returns success: on a concrete archive
declaring `original_size = 2` but carrying an empty payload, the result is
`ok []` — a success exit with an output shorter than the declared size. -/
theorem claim10_truncated_payload_silent_success :
    (∀ (root : CTree) (n p : Nat), 0 < n → decodeAndWrite root [] n p = some []) ∧
    (decompressFile (u32le MAGIC ++ u32le 2 ++ u32le 1 ++ u32le 1 ++ [0] ++ [65] ++ u32le 5) =
        DResult.ok [] ∧
      readU32 (((u32le MAGIC ++ u32le 2 ++ u32le 1 ++ u32le 1 ++ [0] ++ [65] ++ u32le 5).drop 4).take 4) = 2 ∧
      ([] : List Nat).length < 2) := by
  refine ⟨?_, by decide, by decide, by decide⟩
  intro root n p hn
  match n, hn with
  | n + 1, _ =>
    cases root <;> rfl

/-- Witness for C10's first conjunct at a concrete tree and size. -/
theorem claim10_witness :
    0 < 1 ∧ decodeAndWrite (.mk 0 1 (.mk 65 1 .nil .nil) .nil) [] 1 0 = some [] :=
  ⟨by decide, claim10_truncated_payload_silent_success.1 (.mk 0 1 (.mk 65 1 .nil .nil) .nil) 1 0 (by decide)⟩

/-! ### Claim C9: a wrong magic number is rejected before any output exists -/

theorem readU32_four {b0 b1 b2 b3 : Nat} (h0 : b0 < 256) (h1 : b1 < 256) (h2 : b2 < 256)
    (hm : readU32 [b0, b1, b2, b3] = MAGIC) : [b0, b1, b2, b3] = u32le MAGIC := by
  simp only [readU32, u32le, MAGIC, List.getD_cons_zero, List.getD_cons_succ,
    List.cons.injEq, and_true] at *
  omega

/-- C9: for every byte list whose first four bytes differ from the magic
constant, `decompressFile` fails with the format error (`err`): the failure
happens in `readFileHeader`, before the output file is opened (the output is
created only after the header, frequency table and tree rebuild succeed), so
no output file is created or written. -/
theorem claim9_bad_magic_no_output (bs : List Nat) (hb : ∀ b ∈ bs, b < 256)
    (hm : bs.take 4 ≠ u32le MAGIC) : decompressFile bs = DResult.err := by
  by_cases hlen : bs.length < 17
  · unfold decompressFile parseHeader
    rw [if_pos hlen]
  · match bs, hb, hm, hlen with
    | b0 :: b1 :: b2 :: b3 :: rest, hb, hm, hlen =>
      have hne : readU32 [b0, b1, b2, b3] ≠ MAGIC := fun hmg =>
        hm (readU32_four (hb b0 (by simp)) (hb b1 (by simp)) (hb b2 (by simp)) hmg)
      unfold decompressFile parseHeader
      rw [if_neg hlen]
      split
      next heq => exact absurd heq (by simp)
      next magic osize csize fcount pad rest2 heq =>
        simp only [Option.some.injEq, Prod.mk.injEq] at heq
        obtain ⟨h1, h2, h3, h4, h5, h6⟩ := heq
        subst h1
        rw [if_pos]
        exact hne
    | [], _, _, hlen => simp at hlen
    | [_], _, _, hlen => simp at hlen
    | [_, _], _, _, hlen => simp at hlen
    | [_, _, _], _, _, hlen => simp at hlen

/-- Witness for C9 at a concrete 20-byte file of zeros. -/
theorem claim9_witness :
    (∀ b ∈ List.replicate 20 0, b < 256) ∧
      (List.replicate 20 (0 : Nat)).take 4 ≠ u32le MAGIC ∧
      decompressFile (List.replicate 20 0) = DResult.err := by
  refine ⟨by decide, by decide, ?_⟩
  exact claim9_bad_magic_no_output (List.replicate 20 0) (by decide) (by decide)

/-! ### Serialization of the frequency table (claim C8) -/

theorem readU32_u32le {v : Nat} (h : v < 2 ^ 32) : readU32 (u32le v) = v := by
  simp only [readU32, u32le, List.getD_cons_zero, List.getD_cons_succ]
  omega

theorem flatMap_filter (g : Nat → List Nat) (p : Nat → Prop) [DecidablePred p] :
    ∀ l : List Nat,
      (l.flatMap fun i => if p i then g i else []) = (l.filter fun i => p i).flatMap g := by
  intro l
  induction l with
  | nil => rfl
  | cons a t ih =>
    by_cases h : p a
    · simp [h, ih]
    · simp [h, ih]

theorem mem_presentList {f : Nat → Nat} {c : Nat} :
    c ∈ presentList f ↔ c < 256 ∧ 0 < f c := by
  simp [presentList, List.mem_filter, List.mem_range, and_comm]

theorem presentList_sorted (f : Nat → Nat) : List.Pairwise (· < ·) (presentList f) :=
  (List.pairwise_lt_range 256).sublist (List.filter_sublist _)

theorem parseFreqs_spec (f : Nat → Nat) :
    ∀ (sl : List Nat) (f0 : Nat → Nat) (rest : List Nat), (∀ c ∈ sl, f c < 2 ^ 32) →
      ∃ f', parseFreqs sl.length ((sl.flatMap fun c => c :: u32le (f c)) ++ rest) f0 =
          some (f', rest) ∧
        ∀ x, f' x = if x ∈ sl then f x else f0 x := by
  intro sl
  induction sl with
  | nil =>
    intro f0 rest _
    exact ⟨f0, rfl, by simp⟩
  | cons c t ih =>
    intro f0 rest hb
    have hc : f c < 2 ^ 32 := hb c (by simp)
    obtain ⟨f', hp, hchar⟩ :=
      ih (fun x => if x = c then readU32 (u32le (f c)) else f0 x) rest
        (fun z hz => hb z (by simp [hz]))
    refine ⟨f', ?_, ?_⟩
    · rw [show ((c :: t).flatMap fun z => z :: u32le (f z)) ++ rest =
          c :: (u32le (f c) ++ (((t.flatMap fun z => z :: u32le (f z))) ++ rest)) by simp]
      simp only [u32le, List.cons_append, List.length_cons]
      rw [parseFreqs]
      exact hp
    · intro x
      rw [hchar x]
      by_cases hxt : x ∈ t
      · simp [hxt]
      · by_cases hxc : x = c
        · subst hxc
          simp [hxt, readU32_u32le hc]
        · simp [hxt, hxc]

/-- C8: writing the 256-entry frequency table with `writeFrequencies` and
reading it back with `readFrequencies` (given the nonzero-entry count)
recovers every per-symbol count and the set of present symbols exactly, and
the (symbol, count) pairs are emitted in strictly ascending symbol order.
The count bound is the `unsigned int` range of the C counters. -/
theorem claim8_freq_table_roundtrip (f : Nat → Nat) (hf : ∀ c, c < 256 → f c < 2 ^ 32) :
    (freqBytes f = (presentList f).flatMap fun c => c :: u32le (f c)) ∧
    List.Pairwise (· < ·) (presentList f) ∧
    (∀ c, c ∈ presentList f ↔ c < 256 ∧ 0 < f c) ∧
    ∃ f', parseFreqs (presentList f).length (freqBytes f) (fun _ => 0) = some (f', []) ∧
      (∀ c, c < 256 → f' c = f c) ∧
      ∀ c, c < 256 → (0 < f' c ↔ 0 < f c) := by
  have hfb : freqBytes f = (presentList f).flatMap fun c => c :: u32le (f c) :=
    flatMap_filter _ (fun i => 0 < f i) (List.range 256)
  refine ⟨hfb, presentList_sorted f, fun c => mem_presentList, ?_⟩
  obtain ⟨f', hp, hchar⟩ :=
    parseFreqs_spec f (presentList f) (fun _ => 0) []
      (fun c hc => hf c (mem_presentList.mp hc).1)
  rw [List.append_nil] at hp
  rw [← hfb] at hp
  have hpt : ∀ c, c < 256 → f' c = f c := by
    intro c hc
    rw [hchar c]
    by_cases hm : c ∈ presentList f
    · simp [hm]
    · have : f c = 0 := by
        by_contra hne
        exact hm (mem_presentList.mpr ⟨hc, Nat.pos_of_ne_zero hne⟩)
      simp [hm, this]
  exact ⟨f', hp, hpt, fun c hc => by rw [hpt c hc]⟩

/-- Witness for C8 at a concrete two-symbol frequency table. -/
theorem claim8_witness :
    (∀ c, c < 256 →
        (fun z => if z = 65 then 3 else if z = 66 then 1 else 0 : Nat → Nat) c < 2 ^ 32) ∧
      ∃ f', parseFreqs
            (presentList (fun z => if z = 65 then 3 else if z = 66 then 1 else 0)).length
            (freqBytes (fun z => if z = 65 then 3 else if z = 66 then 1 else 0))
            (fun _ => 0) =
          some (f', []) ∧
        (∀ c, c < 256 →
          f' c = (fun z => if z = 65 then 3 else if z = 66 then 1 else 0 : Nat → Nat) c) ∧
        ∀ c, c < 256 →
          (0 < f' c ↔
            0 < (fun z => if z = 65 then 3 else if z = 66 then 1 else 0 : Nat → Nat) c) := by
  have hf : ∀ c, c < 256 →
      (fun z => if z = 65 then 3 else if z = 66 then 1 else 0 : Nat → Nat) c < 2 ^ 32 := by
    intro c _
    dsimp only
    split
    · norm_num
    · split <;> norm_num
  exact ⟨hf, (claim8_freq_table_roundtrip _ hf).2.2.2⟩

/-! ### The heap operations permute their contents -/

theorem set_getD_self : ∀ (l : List CTree) (i : Nat) (d : CTree),
    l.set i (l.getD i d) = l := by
  intro l
  induction l with
  | nil => intro i d; rfl
  | cons a t ih =>
    intro i d
    cases i with
    | zero => rfl
    | succ n =>
      show a :: t.set n ((a :: t).getD (n + 1) d) = a :: t
      rw [List.getD_cons_succ, ih]

theorem cons_set_swap : ∀ (t : List CTree) (k : Nat) (a b : CTree), k < t.length →
    List.Perm (a :: t.set k b) (b :: t.set k a) := by
  intro t
  induction t with
  | nil =>
    intro k a b hk
    simp at hk
  | cons x t' ih =>
    intro k a b hk
    cases k with
    | zero => exact List.Perm.swap b a t'
    | succ n =>
      show List.Perm (a :: x :: t'.set n b) (b :: x :: t'.set n a)
      exact ((List.Perm.swap x a _).trans
        ((ih n a b (by simpa using hk)).cons x)).trans (List.Perm.swap b x _)

theorem set_set_swap : ∀ (l : List CTree) (i j : Nat) (a b : CTree),
    i < l.length → j < l.length → i ≠ j →
    List.Perm ((l.set i a).set j b) ((l.set i b).set j a) := by
  intro l
  induction l with
  | nil =>
    intro i j a b hi
    simp at hi
  | cons x t ih =>
    intro i j a b hi hj hij
    cases i with
    | zero =>
      cases j with
      | zero => exact absurd rfl hij
      | succ m =>
        show List.Perm (a :: t.set m b) (b :: t.set m a)
        exact cons_set_swap t m a b (by simpa using hj)
    | succ n =>
      cases j with
      | zero =>
        show List.Perm (b :: t.set n a) (a :: t.set n b)
        exact cons_set_swap t n b a (by simpa using hi)
      | succ m =>
        show List.Perm (x :: (t.set n a).set m b) (x :: (t.set n b).set m a)
        exact (ih n m a b (by simpa using hi) (by simpa using hj) (by omega)).cons x

theorem swap_perm (l : List CTree) (i j : Nat) (hi : i < l.length) (hj : j < l.length) :
    List.Perm ((l.set i (l.getD j .nil)).set j (l.getD i .nil)) l := by
  by_cases hij : i = j
  · subst hij
    rw [set_getD_self, set_getD_self]
  · refine (set_set_swap l i j (l.getD j .nil) (l.getD i .nil) hi hj hij).trans ?_
    rw [set_getD_self, set_getD_self]

theorem siftUp_perm {l : List CTree} {x : CTree} {i : Nat} (hi : i < l.length) :
    List.Perm (siftUp l x i) (l.set i x) := by
  induction i using Nat.strong_induction_on generalizing l with
  | _ i ih =>
    rw [siftUp]
    split
    · rename_i h0
      subst h0
      exact List.Perm.refl _
    · rename_i h0
      split
      · have h1 := ih ((i - 1) / 2) (by omega)
          (l := l.set i (l.getD ((i - 1) / 2) .nil)) (by simp only [List.length_set]; omega)
        refine h1.trans ?_
        refine (set_set_swap l i ((i - 1) / 2) (l.getD ((i - 1) / 2) .nil) x hi
          (by omega) (by omega)).trans ?_
        have h3 : (l.set i x).getD ((i - 1) / 2) .nil = l.getD ((i - 1) / 2) .nil :=
          getD_set_ne l _ .nil (by omega)
        rw [← h3, set_getD_self]
      · exact List.Perm.refl _

theorem insertMinHeap_perm {cap : Nat} {l : List CTree} {x : CTree} (hc : l.length < cap) :
    List.Perm (insertMinHeap cap l x) (x :: l) := by
  unfold insertMinHeap
  rw [if_neg (by omega)]
  refine (siftUp_perm (l := l ++ [x]) (x := x) (i := l.length) (by simp)).trans ?_
  have h2 : (l ++ [x]).getD l.length .nil = x := by
    rw [List.getD_eq_getElem?_getD]
    simp
  nth_rewrite 2 [← h2]
  rw [set_getD_self]
  exact List.perm_append_comm

theorem minHeapifyF_perm (fuel : Nat) : ∀ (l : List CTree) (i : Nat),
    List.Perm (minHeapifyF fuel l i) l := by
  induction fuel with
  | zero =>
    intro l i
    exact List.Perm.refl _
  | succ n ih =>
    intro l i
    rw [minHeapifyF]
    repeat' split
    all_goals first
      | exact List.Perm.refl _
      | (refine (ih _ _).trans (swap_perm l i _ ?_ ?_) <;> omega)

theorem extractMin_perm {h : List CTree} {r : CTree} {h' : List CTree}
    (he : extractMin h = some (r, h')) : List.Perm h (r :: h') := by
  match h with
  | [] => simp [extractMin] at he
  | [a] =>
    simp only [extractMin, Option.some.injEq, Prod.mk.injEq] at he
    rw [he.1, ← he.2]
  | a :: b :: rest =>
    simp only [extractMin, Option.some.injEq, Prod.mk.injEq] at he
    obtain ⟨h1, h2⟩ := he
    subst h1
    rw [← h2]
    refine List.Perm.cons a ?_
    refine List.Perm.trans ?_ (minHeapifyF_perm _ _ _).symm
    have hne : b :: rest ≠ ([] : List CTree) := by simp
    rw [List.getLast?_eq_getLast _ hne]
    simp only [Option.getD_some]
    conv_lhs => rw [← List.dropLast_append_getLast hne]
    exact List.perm_append_comm

/-! ### The merge loop: one well-formed tree carrying all the leaves -/

theorem wfFull_ne_nil {t : CTree} (h : wfFull t) : t ≠ .nil := by
  intro he
  subst he
  exact h

theorem wfFull_merge {a b : CTree} (ha : wfFull a) (hb : wfFull b) (c w : Nat) :
    wfFull (.mk c w a b) := by
  match a, ha, b, hb with
  | .mk _ _ _ _, ha, .mk _ _ _ _, hb =>
    exact ⟨fun h => CTree.noConfusion h, fun h => CTree.noConfusion h, ha, hb⟩

theorem leafChars_merge {a b : CTree} (ha : a ≠ .nil) (hb : b ≠ .nil) (c w : Nat) :
    leafChars (.mk c w a b) = leafChars a ++ leafChars b := by
  match a, ha, b, hb with
  | .mk _ _ _ _, _, .mk _ _ _ _, _ => rfl

theorem buildLoopF_spec :
    ∀ (fuel cap : Nat) (h : List CTree), h.length ≤ fuel → h.length ≤ cap →
      1 ≤ h.length → (∀ y ∈ h, wfFull y) →
      ∃ t, buildLoopF cap fuel h = some [t] ∧ wfFull t ∧
        List.Perm (h.flatMap leafChars) (leafChars t) := by
  intro fuel
  induction fuel with
  | zero =>
    intro cap h hf _ h1 _
    omega
  | succ n ih =>
    intro cap h hf hcap h1 hwf
    rw [buildLoopF]
    by_cases hlen : h.length ≤ 1
    · rw [if_pos hlen]
      obtain ⟨t, rfl⟩ := List.length_eq_one.mp (le_antisymm hlen h1)
      exact ⟨t, rfl, hwf t (by simp), by simp⟩
    · rw [if_neg hlen]
      have hne : h ≠ [] := by
        intro he
        subst he
        simp at h1
      obtain ⟨h1', hex⟩ := extractMin_head hne
      have hp1 := extractMin_perm hex
      have hl1 : h1'.length + 1 = h.length := extractMin_length hex
      have hne1 : h1' ≠ [] := by
        intro he
        subst he
        simp at hl1
        omega
      obtain ⟨h2', hex2⟩ := extractMin_head hne1
      have hp2 := extractMin_perm hex2
      have hl2 : h2'.length + 1 = h1'.length := extractMin_length hex2
      have hwa : wfFull (h.getD 0 .nil) := hwf _ (getD_mem h 0 .nil (by omega))
      have hwf1 : ∀ y ∈ h1', wfFull y := fun y hy =>
        hwf y (hp1.mem_iff.mpr (by simp [hy]))
      have hwb : wfFull (h1'.getD 0 .nil) := hwf1 _ (getD_mem h1' 0 .nil (by omega))
      have hwf2 : ∀ y ∈ h2', wfFull y := fun y hy =>
        hwf1 y (hp2.mem_iff.mpr (by simp [hy]))
      have hwm : wfFull (CTree.mk 0
          (((h.getD 0 .nil).freq + (h1'.getD 0 .nil).freq) % 2 ^ 32)
          (h.getD 0 .nil) (h1'.getD 0 .nil)) := wfFull_merge hwa hwb _ _
      have hlcm : leafChars (CTree.mk 0
            (((h.getD 0 .nil).freq + (h1'.getD 0 .nil).freq) % 2 ^ 32)
            (h.getD 0 .nil) (h1'.getD 0 .nil)) =
          leafChars (h.getD 0 .nil) ++ leafChars (h1'.getD 0 .nil) :=
        leafChars_merge (wfFull_ne_nil hwa) (wfFull_ne_nil hwb) _ _
      have hip := @insertMinHeap_perm cap h2'
        (CTree.mk 0 (((h.getD 0 .nil).freq + (h1'.getD 0 .nil).freq) % 2 ^ 32)
          (h.getD 0 .nil) (h1'.getD 0 .nil)) (by omega)
      have hilen : (insertMinHeap cap h2'
          (CTree.mk 0 (((h.getD 0 .nil).freq + (h1'.getD 0 .nil).freq) % 2 ^ 32)
            (h.getD 0 .nil) (h1'.getD 0 .nil))).length = h2'.length + 1 := by
        rw [hip.length_eq]
        rfl
      obtain ⟨t, heq, hwt, hpt⟩ := ih cap (insertMinHeap cap h2'
          (CTree.mk 0 (((h.getD 0 .nil).freq + (h1'.getD 0 .nil).freq) % 2 ^ 32)
            (h.getD 0 .nil) (h1'.getD 0 .nil)))
        (by omega) (by omega) (by omega)
        (fun y hy => by
          rcases List.mem_cons.mp (hip.mem_iff.mp hy) with rfl | hy2
          · exact hwm
          · exact hwf2 y hy2)
      refine ⟨t, ?_, hwt, ?_⟩
      · simp only [hex, hex2]
        exact heq
      · have c1 : List.Perm (h.flatMap leafChars) ((h.getD 0 .nil :: h1').flatMap leafChars) :=
          hp1.flatMap_right leafChars
        have c2 : List.Perm (h1'.flatMap leafChars)
            ((h1'.getD 0 .nil :: h2').flatMap leafChars) := hp2.flatMap_right leafChars
        have c3 := hip.flatMap_right leafChars
        simp only [List.flatMap_cons] at c1 c2 c3
        refine (c1.trans ((c2.append_left _).trans ?_)).trans hpt
        refine List.Perm.trans ?_ c3.symm
        rw [hlcm, List.append_assoc]

/-! ### Populating the initial heap with the present symbols -/

theorem leaf_fold_spec (cap : Nat) (g : Nat → Nat) :
    ∀ (sl : List Nat) (h : List CTree), h.length + sl.length ≤ cap →
      (∀ y ∈ h, wfFull y) →
      (sl.foldl (fun hh c => insertMinHeap cap hh (.mk c (g c) .nil .nil)) h).length =
        h.length + sl.length ∧
      (∀ y ∈ sl.foldl (fun hh c => insertMinHeap cap hh (.mk c (g c) .nil .nil)) h,
        wfFull y) ∧
      List.Perm
        ((sl.foldl (fun hh c => insertMinHeap cap hh (.mk c (g c) .nil .nil)) h).flatMap
          leafChars)
        (h.flatMap leafChars ++ sl) := by
  intro sl
  induction sl with
  | nil =>
    intro h _ hwf
    exact ⟨by simp, hwf, by simp⟩
  | cons c t ih =>
    intro h hcap hwf
    have hip := @insertMinHeap_perm cap h
      (CTree.mk c (g c) .nil .nil) (by simp at hcap; omega)
    have hlen : (insertMinHeap cap h (CTree.mk c (g c) .nil .nil)).length = h.length + 1 := by
      rw [hip.length_eq]
      rfl
    have hwf' : ∀ y ∈ insertMinHeap cap h (CTree.mk c (g c) .nil .nil), wfFull y := by
      intro y hy
      rcases List.mem_cons.mp (hip.mem_iff.mp hy) with rfl | hy2
      · trivial
      · exact hwf y hy2
    obtain ⟨ihlen, ihwf, ihperm⟩ := ih (insertMinHeap cap h (CTree.mk c (g c) .nil .nil))
      (by simp at hcap ⊢; omega) hwf'
    refine ⟨?_, ?_, ?_⟩
    · simp only [List.foldl_cons]
      rw [ihlen, hlen]
      simp
      omega
    · simp only [List.foldl_cons]
      exact ihwf
    · simp only [List.foldl_cons]
      refine ihperm.trans ?_
      have c3 := hip.flatMap_right leafChars
      simp only [List.flatMap_cons] at c3
      refine (c3.append_right t).trans ?_
      have : leafChars (CTree.mk c (g c) .nil .nil) = [c] := rfl
      rw [this]
      -- goal: Perm (([c] ++ h.flatMap leafChars) ++ t) (h.flatMap leafChars ++ c :: t)
      refine ((List.perm_append_comm).append_right t).trans ?_
      rw [List.append_assoc]
      exact List.Perm.refl _

/-! ### The generateCodes traversal: leaf characters, prefix-freeness, lookup -/

theorem paths_fst : ∀ t : CTree, (paths t).map Prod.fst = leafChars t := by
  intro t
  induction t with
  | nil => rfl
  | mk c w l r ihl ihr =>
    cases l <;> cases r <;>
      simp_all [paths, leafChars, List.map_append, List.map_map, Function.comp_def]

theorem paths_snd_ne_nil {c0 w0 : Nat} {l r : CTree} (h : ¬(l = .nil ∧ r = .nil)) :
    ∀ p ∈ paths (.mk c0 w0 l r), p.2 ≠ [] := by
  intro p hp
  cases l with
  | nil =>
    cases r with
    | nil => exact absurd ⟨rfl, rfl⟩ h
    | mk c2 w2 l2 r2 =>
      simp only [paths, List.map_nil, List.nil_append, List.mem_map] at hp
      obtain ⟨q, _, rfl⟩ := hp
      simp
  | mk c1 w1 l1 r1 =>
    cases r with
    | nil =>
      simp only [paths, List.map_nil, List.append_nil, List.mem_map] at hp
      obtain ⟨q, _, rfl⟩ := hp
      simp
    | mk c2 w2 l2 r2 =>
      simp only [paths, List.mem_append, List.mem_map] at hp
      rcases hp with ⟨q, _, rfl⟩ | ⟨q, _, rfl⟩ <;> simp

theorem isPrefB_cons_cons (a b : Bool) (p q : List Bool) :
    isPrefB (a :: p) (b :: q) = (a == b && isPrefB p q) := rfl

theorem pairwise_prefix_map_cons (b : Bool) {ps : List (Nat × List Bool)}
    (h : List.Pairwise (fun x y => isPrefB x.2 y.2 = false ∧ isPrefB y.2 x.2 = false) ps) :
    List.Pairwise (fun x y => isPrefB x.2 y.2 = false ∧ isPrefB y.2 x.2 = false)
      (ps.map fun p => (p.1, b :: p.2)) :=
  List.Pairwise.map _ (fun x y hxy => by
    simp only [isPrefB_cons_cons, beq_self_eq_true, Bool.true_and]
    exact hxy) h

theorem paths_prefix_free_pairwise : ∀ t : CTree,
    List.Pairwise (fun x y => isPrefB x.2 y.2 = false ∧ isPrefB y.2 x.2 = false)
      (paths t) := by
  intro t
  induction t with
  | nil => exact List.Pairwise.nil
  | mk c w l r ihl ihr =>
    cases hl : l with
    | nil =>
      cases hr : r with
      | nil => simp [paths]
      | mk c2 w2 l2 r2 =>
        subst hl hr
        show List.Pairwise _ (((paths .nil).map _) ++ _)
        simp only [paths, List.map_nil, List.nil_append]
        exact pairwise_prefix_map_cons true ihr
    | mk c1 w1 l1 r1 =>
      cases hr : r with
      | nil =>
        subst hl hr
        show List.Pairwise _ (_ ++ ((paths .nil).map _))
        simp only [paths, List.map_nil, List.append_nil]
        exact pairwise_prefix_map_cons false ihl
      | mk c2 w2 l2 r2 =>
        subst hl hr
        show List.Pairwise _ (_ ++ _)
        rw [List.pairwise_append]
        refine ⟨pairwise_prefix_map_cons false ihl, pairwise_prefix_map_cons true ihr, ?_⟩
        intro x hx y hy
        simp only [List.mem_map] at hx hy
        obtain ⟨px, _, rfl⟩ := hx
        obtain ⟨py, _, rfl⟩ := hy
        constructor <;> simp [isPrefB_cons_cons]

theorem fold_update_not_mem :
    ∀ (ps : List (Nat × List Bool)) (t0 : Nat → List Bool) (c : Nat),
      c ∉ ps.map Prod.fst →
      ps.foldl (fun tbl q => fun x => if x = q.1 then q.2 else tbl x) t0 c = t0 c := by
  intro ps
  induction ps with
  | nil =>
    intro t0 c _
    rfl
  | cons q ps ih =>
    intro t0 c hc
    simp only [List.map_cons, List.mem_cons] at hc
    push_neg at hc
    rw [List.foldl_cons, ih _ _ hc.2]
    simp [hc.1]

theorem fold_update_lookup :
    ∀ (ps : List (Nat × List Bool)) (t0 : Nat → List Bool) (c : Nat) (p : List Bool),
      (ps.map Prod.fst).Nodup → (c, p) ∈ ps →
      ps.foldl (fun tbl q => fun x => if x = q.1 then q.2 else tbl x) t0 c = p := by
  intro ps
  induction ps with
  | nil =>
    intro t0 c p _ hm
    simp at hm
  | cons q ps ih =>
    intro t0 c p hnd hm
    simp only [List.map_cons, List.nodup_cons] at hnd
    rcases List.mem_cons.mp hm with rfl | hm2
    · rw [List.foldl_cons, fold_update_not_mem ps _ c hnd.1]
      simp
    · exact ih _ c p hnd.2 hm2

theorem codeTable_internal {c w : Nat} {l r : CTree} (h : ¬(l = .nil ∧ r = .nil)) :
    codeTable (.mk c w l r) =
      (paths (.mk c w l r)).foldl
        (fun tbl q => fun x => if x = q.1 then q.2 else tbl x) (fun _ => []) := by
  cases l with
  | nil =>
    cases r with
    | nil => exact absurd ⟨rfl, rfl⟩ h
    | mk _ _ _ _ => rfl
  | mk _ _ _ _ =>
    cases r with
    | nil => rfl
    | mk _ _ _ _ => rfl

theorem codeTable_lookup {c0 w0 : Nat} {l r : CTree} {c : Nat} {p : List Bool}
    (hint : ¬(l = .nil ∧ r = .nil))
    (hnd : ((paths (.mk c0 w0 l r)).map Prod.fst).Nodup)
    (hm : (c, p) ∈ paths (.mk c0 w0 l r)) :
    codeTable (.mk c0 w0 l r) c = p := by
  rw [codeTable_internal hint]
  exact fold_update_lookup _ _ c p hnd hm

/-! ### The decoder follows each code to its leaf -/

theorem decodeLoop_step (root : CTree) (c0 w0 : Nat) (cl cr : CTree) (b : Bool)
    (bits : List Bool) (r : Nat) (acc : List Nat) :
    decodeLoop root (.mk c0 w0 cl cr) (b :: bits) (r + 1) acc =
      match (if b then cr else cl) with
      | .nil => none
      | .mk ch f gl gr =>
        if gl = .nil ∧ gr = .nil then
          match root with
          | .nil => some (ch :: acc).reverse
          | _ => decodeLoop root root bits r (ch :: acc)
        else decodeLoop root (.mk ch f gl gr) bits (r + 1) acc := rfl

theorem decodeLoop_to_leaf (rt : CTree) (c0 w0 ch f : Nat) (cr : CTree)
    (bits : List Bool) (r : Nat) (acc : List Nat) :
    decodeLoop rt (.mk c0 w0 (.mk ch f .nil .nil) cr) (false :: bits) (r + 1) acc =
      match rt with
      | .nil => some (ch :: acc).reverse
      | _ => decodeLoop rt rt bits r (ch :: acc) := rfl

theorem decodeLoop_to_leaf_r (rt : CTree) (c0 w0 ch f : Nat) (cl : CTree)
    (bits : List Bool) (r : Nat) (acc : List Nat) :
    decodeLoop rt (.mk c0 w0 cl (.mk ch f .nil .nil)) (true :: bits) (r + 1) acc =
      match rt with
      | .nil => some (ch :: acc).reverse
      | _ => decodeLoop rt rt bits r (ch :: acc) := rfl

theorem decodeLoop_to_int (rt : CTree) (c0 w0 ch f a1 a2 b1 b2 : Nat)
    (a3 a4 b3 b4 : CTree) (cr : CTree) (bits : List Bool) (r : Nat) (acc : List Nat) :
    decodeLoop rt (.mk c0 w0 (.mk ch f (.mk a1 a2 a3 a4) (.mk b1 b2 b3 b4)) cr)
        (false :: bits) (r + 1) acc =
      decodeLoop rt (.mk ch f (.mk a1 a2 a3 a4) (.mk b1 b2 b3 b4)) bits (r + 1) acc := by
  rw [decodeLoop_step]
  exact if_neg (by simp)

theorem decodeLoop_to_int_r (rt : CTree) (c0 w0 ch f a1 a2 b1 b2 : Nat)
    (a3 a4 b3 b4 : CTree) (cl : CTree) (bits : List Bool) (r : Nat) (acc : List Nat) :
    decodeLoop rt (.mk c0 w0 cl (.mk ch f (.mk a1 a2 a3 a4) (.mk b1 b2 b3 b4)))
        (true :: bits) (r + 1) acc =
      decodeLoop rt (.mk ch f (.mk a1 a2 a3 a4) (.mk b1 b2 b3 b4)) bits (r + 1) acc := by
  rw [decodeLoop_step]
  exact if_neg (by simp)

theorem decode_descend :
    ∀ (u : CTree), wfFull u →
      ∀ (c : Nat) (p : List Bool), (c, p) ∈ paths u → p ≠ [] →
        ∀ (rc rw0 : Nat) (rl rr : CTree) (rest : List Bool) (n : Nat) (acc : List Nat),
          decodeLoop (.mk rc rw0 rl rr) u (p ++ rest) (n + 1) acc =
            decodeLoop (.mk rc rw0 rl rr) (.mk rc rw0 rl rr) rest n (c :: acc) := by
  intro u
  induction u with
  | nil =>
    intro h
    exact h.elim
  | mk c0 w0 l r ihl ihr =>
    intro hwf c p hp hpne rc rw0 rl rr rest n acc
    cases l with
    | nil =>
      cases r with
      | nil =>
        simp only [paths, List.mem_singleton, Prod.mk.injEq] at hp
        exact absurd hp.2 hpne
      | mk c2 w2 l2 r2 => exact absurd rfl hwf.1
    | mk c1 w1 l1 r1 =>
      cases r with
      | nil => exact absurd rfl hwf.2.1
      | mk c2 w2 l2 r2 =>
        obtain ⟨-, -, hwl, hwr⟩ := hwf
        simp only [paths, List.mem_append, List.mem_map] at hp
        rcases hp with ⟨q, hq, hqe⟩ | ⟨q, hq, hqe⟩
        · -- descend left: p = false :: q.2
          obtain ⟨hc, hpq⟩ := Prod.mk.injEq .. ▸ hqe
          subst hc
          rw [← hpq, List.cons_append]
          cases l1 with
          | nil =>
            cases r1 with
            | nil =>
              simp only [paths, List.mem_singleton] at hq
              subst hq
              simp only [List.nil_append]
              rw [decodeLoop_to_leaf]
            | mk _ _ _ _ => exact absurd rfl hwl.1
          | mk a1 a2 a3 a4 =>
            cases r1 with
            | nil => exact absurd rfl hwl.2.1
            | mk b1 b2 b3 b4 =>
              rw [decodeLoop_to_int]
              have hqm : (q.1, q.2) ∈
                  paths (.mk c1 w1 (.mk a1 a2 a3 a4) (.mk b1 b2 b3 b4)) := hq
              have hqn : q.2 ≠ [] := paths_snd_ne_nil (by simp) (q.1, q.2) hqm
              exact ihl hwl q.1 q.2 hqm hqn rc rw0 rl rr rest n acc
        · -- descend right: p = true :: q.2
          obtain ⟨hc, hpq⟩ := Prod.mk.injEq .. ▸ hqe
          subst hc
          rw [← hpq, List.cons_append]
          cases l2 with
          | nil =>
            cases r2 with
            | nil =>
              simp only [paths, List.mem_singleton] at hq
              subst hq
              simp only [List.nil_append]
              rw [decodeLoop_to_leaf_r]
            | mk _ _ _ _ => exact absurd rfl hwr.1
          | mk a1 a2 a3 a4 =>
            cases r2 with
            | nil => exact absurd rfl hwr.2.1
            | mk b1 b2 b3 b4 =>
              rw [decodeLoop_to_int_r]
              have hqm : (q.1, q.2) ∈
                  paths (.mk c2 w2 (.mk a1 a2 a3 a4) (.mk b1 b2 b3 b4)) := hq
              have hqn : q.2 ≠ [] := paths_snd_ne_nil (by simp) (q.1, q.2) hqm
              exact ihr hwr q.1 q.2 hqm hqn rc rw0 rl rr rest n acc

/-! ### Decoding a concatenation of codes recovers the symbols -/

theorem decodeLoop_zero (root cur : CTree) (bits : List Bool) (acc : List Nat) :
    decodeLoop root cur bits 0 acc = some acc.reverse := by
  cases bits <;> rfl

theorem decode_encode_loop {rc rw0 : Nat} {rl rr : CTree}
    (hwf : wfFull (.mk rc rw0 rl rr)) (hint : ¬(rl = .nil ∧ rr = .nil))
    (tbl : Nat → List Bool) :
    ∀ (x : List Nat) (acc : List Nat) (rest : List Bool),
      (∀ b ∈ x, (b, tbl b) ∈ paths (.mk rc rw0 rl rr)) →
      decodeLoop (.mk rc rw0 rl rr) (.mk rc rw0 rl rr) (encodeBits tbl x ++ rest)
        x.length acc = some (acc.reverse ++ x) := by
  intro x
  induction x with
  | nil =>
    intro acc rest _
    rw [List.length_nil, decodeLoop_zero]
    simp
  | cons b x' ih =>
    intro acc rest hb
    have hmem : (b, tbl b) ∈ paths (.mk rc rw0 rl rr) := hb b (by simp)
    have hne : tbl b ≠ [] := paths_snd_ne_nil hint (b, tbl b) hmem
    have he : encodeBits tbl (b :: x') ++ rest = tbl b ++ (encodeBits tbl x' ++ rest) := by
      simp [encodeBits, List.flatMap_cons, List.append_assoc]
    rw [he, List.length_cons]
    rw [decode_descend (.mk rc rw0 rl rr) hwf b (tbl b) hmem hne]
    rw [ih (b :: acc) rest (fun z hz => hb z (by simp [hz]))]
    simp

theorem decode_single (c w : Nat) :
    ∀ (N M : Nat) (acc : List Nat), N ≤ M →
      decodeLoop (.mk 0 w (.mk c w .nil .nil) .nil) (.mk 0 w (.mk c w .nil .nil) .nil)
        (List.replicate M false) N acc = some (acc.reverse ++ List.replicate N c) := by
  intro N
  induction N with
  | zero =>
    intro M acc _
    rw [decodeLoop_zero]
    simp
  | succ n ih =>
    intro M acc hM
    match M, hM with
    | M' + 1, hM =>
      rw [List.replicate_succ]
      rw [decodeLoop_to_leaf]
      show decodeLoop _ _ (List.replicate M' false) n (c :: acc) = _
      rw [ih M' (c :: acc) (by omega)]
      simp [List.replicate_succ]

/-! ### Bit packing and unpacking -/

theorem bitsOfByte_byteOfBits_8 : ∀ (b0 b1 b2 b3 b4 b5 b6 b7 : Bool),
    bitsOfByte (byteOfBits [b0, b1, b2, b3, b4, b5, b6, b7]) =
      [b0, b1, b2, b3, b4, b5, b6, b7] := by decide

theorem bitsOfByte_byteOfBits {c : List Bool} (h : c.length = 8) :
    bitsOfByte (byteOfBits c) = c := by
  match c, h with
  | [b0, b1, b2, b3, b4, b5, b6, b7], _ =>
    exact bitsOfByte_byteOfBits_8 b0 b1 b2 b3 b4 b5 b6 b7

theorem bytesToBits_cons (x : Nat) (l : List Nat) :
    bytesToBits (x :: l) = bitsOfByte x ++ bytesToBits l := by
  simp [bytesToBits, List.flatMap_cons]

theorem bytesToBits_bitsToBytes_aux : ∀ (n : Nat) (bs : List Bool), bs.length ≤ n →
    bytesToBits (bitsToBytes bs) =
      bs ++ List.replicate ((8 - bs.length % 8) % 8) false := by
  intro n
  induction n with
  | zero =>
    intro bs h
    have hb : bs = [] := List.eq_nil_of_length_eq_zero (by omega)
    subst hb
    rw [bitsToBytes]
    simp [bytesToBits]
  | succ n ih =>
    intro bs hlen
    by_cases hnil : bs = []
    · subst hnil
      rw [bitsToBytes]
      simp [bytesToBits]
    · have hpos : bs.length ≠ 0 := fun hz => hnil (List.eq_nil_of_length_eq_zero hz)
      rw [bitsToBytes, if_neg hnil, bytesToBits_cons]
      rw [bitsOfByte_byteOfBits (by simp [List.length_take]; omega)]
      by_cases h8 : 8 ≤ bs.length
      · rw [ih (bs.drop 8) (by simp; omega)]
        rw [show 8 - bs.length = 0 from by omega]
        simp only [List.replicate_zero, List.append_nil, List.length_drop]
        rw [← List.append_assoc, List.take_append_drop]
        rw [show (8 - (bs.length - 8) % 8) % 8 = (8 - bs.length % 8) % 8 from by omega]
      · have ht : bs.take 8 = bs := List.take_of_length_le (by omega)
        have hd : bs.drop 8 = [] := List.drop_eq_nil_of_le (by omega)
        rw [ht, hd]
        rw [show bitsToBytes ([] : List Bool) = [] from by rw [bitsToBytes]; simp]
        rw [show bytesToBits ([] : List Nat) = [] from rfl]
        rw [List.append_nil]
        rw [show (8 - bs.length % 8) % 8 = 8 - bs.length from by omega]

theorem bytesToBits_bitsToBytes (bs : List Bool) :
    bytesToBits (bitsToBytes bs) =
      bs ++ List.replicate ((8 - bs.length % 8) % 8) false :=
  bytesToBits_bitsToBytes_aux bs.length bs (le_refl _)

theorem bitsToBytes_length_aux : ∀ (n : Nat) (bs : List Bool), bs.length ≤ n →
    (bitsToBytes bs).length = (bs.length + 7) / 8 := by
  intro n
  induction n with
  | zero =>
    intro bs h
    have hb : bs = [] := List.eq_nil_of_length_eq_zero (by omega)
    subst hb
    rw [bitsToBytes]
    simp
  | succ n ih =>
    intro bs hlen
    by_cases hnil : bs = []
    · subst hnil
      rw [bitsToBytes]
      simp
    · have hpos : bs.length ≠ 0 := fun hz => hnil (List.eq_nil_of_length_eq_zero hz)
      rw [bitsToBytes, if_neg hnil]
      simp only [List.length_cons]
      rw [ih (bs.drop 8) (by simp; omega)]
      simp only [List.length_drop]
      omega

theorem bitsToBytes_length (bs : List Bool) :
    (bitsToBytes bs).length = (bs.length + 7) / 8 :=
  bitsToBytes_length_aux bs.length bs (le_refl _)

/-! ### buildHuffmanTree produces one well-formed tree per present symbol -/

theorem buildHuffmanTree_spec {f : Nat → Nat} (h2 : 2 ≤ (presentList f).length) :
    ∃ t, buildHuffmanTree f = some t ∧ wfFull t ∧
      List.Perm (leafChars t) (presentList f) := by
  obtain ⟨hlen0, hwf0, hperm0⟩ := leaf_fold_spec (presentList f).length f (presentList f) []
    (by simp) (by simp)
  obtain ⟨t, heq, hwt, hpt⟩ := buildLoopF_spec
    ((presentList f).foldl
      (fun hh c => insertMinHeap (presentList f).length hh (.mk c (f c) .nil .nil)) []).length
    (presentList f).length
    ((presentList f).foldl
      (fun hh c => insertMinHeap (presentList f).length hh (.mk c (f c) .nil .nil)) [])
    (le_refl _) (by rw [hlen0]; simp) (by rw [hlen0]; simp; omega) hwf0
  refine ⟨t, ?_, hwt, ?_⟩
  · have heq' : buildLoop (presentList f).length
        ((presentList f).foldl
          (fun h c => insertMinHeap (presentList f).length h (.mk c (f c) .nil .nil)) []) =
        some [t] := heq
    unfold buildHuffmanTree
    rw [if_neg (by omega), if_neg (by omega)]
    show (match buildLoop (presentList f).length
        ((presentList f).foldl
          (fun h c => insertMinHeap (presentList f).length h (.mk c (f c) .nil .nil)) []) with
      | none => none
      | some h' =>
        match extractMin h' with
        | none => none
        | some (r, _) => some r) = some t
    rw [heq']
    rfl
  · refine hpt.symm.trans ?_
    refine hperm0.trans ?_
    simp

theorem buildHuffmanTree_single {f : Nat → Nat} {c : Nat} (h1 : presentList f = [c]) :
    buildHuffmanTree f = some (.mk 0 (f c) (.mk c (f c) .nil .nil) .nil) := by
  unfold buildHuffmanTree
  rw [h1]
  rfl

theorem internal_of_two_leaves {t : CTree} (hw : wfFull t)
    (h2 : 2 ≤ (leafChars t).length) :
    ∃ c0 w0 l r, t = .mk c0 w0 l r ∧ ¬(l = .nil ∧ r = .nil) := by
  cases t with
  | nil => exact hw.elim
  | mk c0 w0 l r =>
    refine ⟨c0, w0, l, r, rfl, ?_⟩
    rintro ⟨rfl, rfl⟩
    simp [leafChars] at h2

/-! ### Claim C5: the code table is prefix-free on present symbols -/

/-- C5: for every frequency table with at least one nonzero count, the code
table generated over the built Huffman tree assigns codes such that no
present symbol's code is a prefix of another present symbol's code. -/
theorem claim5_prefix_free (f : Nat → Nat) (hp : ∃ c, c < 256 ∧ 0 < f c) :
    ∃ t, buildHuffmanTree f = some t ∧
      ∀ s1 s2, s1 < 256 → s2 < 256 → 0 < f s1 → 0 < f s2 → s1 ≠ s2 →
        isPrefB (codeTable t s1) (codeTable t s2) = false := by
  obtain ⟨c, hc, hfc⟩ := hp
  have hmc : c ∈ presentList f := mem_presentList.mpr ⟨hc, hfc⟩
  have hne : presentList f ≠ [] := fun h => by
    rw [h] at hmc
    simp at hmc
  rcases Nat.lt_or_ge (presentList f).length 2 with hlt | hge
  · have h1 : (presentList f).length = 1 := by
      have h0 : (presentList f).length ≠ 0 := fun h =>
        hne (List.eq_nil_of_length_eq_zero h)
      omega
    obtain ⟨c0, hc0⟩ := List.length_eq_one.mp h1
    refine ⟨_, buildHuffmanTree_single hc0, ?_⟩
    intro s1 s2 hs1 hs2 hf1 hf2 hne12
    exfalso
    have m1 : s1 ∈ presentList f := mem_presentList.mpr ⟨hs1, hf1⟩
    have m2 : s2 ∈ presentList f := mem_presentList.mpr ⟨hs2, hf2⟩
    rw [hc0] at m1 m2
    simp at m1 m2
    exact hne12 (m1.trans m2.symm)
  · obtain ⟨t, heq, hwt, hpt⟩ := buildHuffmanTree_spec hge
    refine ⟨t, heq, ?_⟩
    intro s1 s2 hs1 hs2 hf1 hf2 hne12
    have hnd : (presentList f).Nodup :=
      (presentList_sorted f).imp (fun h => Nat.ne_of_lt h)
    have hndl : (leafChars t).Nodup := (hpt.nodup_iff).mpr hnd
    have hndp : ((paths t).map Prod.fst).Nodup := by
      rw [paths_fst]
      exact hndl
    have hlen2 : 2 ≤ (leafChars t).length := by
      rw [hpt.length_eq]
      omega
    obtain ⟨c0, w0, l, r, rfl, hint⟩ := internal_of_two_leaves hwt hlen2
    have hm1 : s1 ∈ (paths (.mk c0 w0 l r)).map Prod.fst := by
      rw [paths_fst]
      exact hpt.mem_iff.mpr (mem_presentList.mpr ⟨hs1, hf1⟩)
    have hm2 : s2 ∈ (paths (.mk c0 w0 l r)).map Prod.fst := by
      rw [paths_fst]
      exact hpt.mem_iff.mpr (mem_presentList.mpr ⟨hs2, hf2⟩)
    obtain ⟨q1, hq1, hq1e⟩ := List.mem_map.mp hm1
    obtain ⟨q2, hq2, hq2e⟩ := List.mem_map.mp hm2
    have e1 : codeTable (.mk c0 w0 l r) s1 = q1.2 :=
      codeTable_lookup hint hndp (by rw [← hq1e, Prod.mk.eta]; exact hq1)
    have e2 : codeTable (.mk c0 w0 l r) s2 = q2.2 :=
      codeTable_lookup hint hndp (by rw [← hq2e, Prod.mk.eta]; exact hq2)
    have hsym : Symmetric (fun x y : Nat × List Bool =>
        isPrefB x.2 y.2 = false ∧ isPrefB y.2 x.2 = false) := fun x y h => ⟨h.2, h.1⟩
    have hqne : q1 ≠ q2 := fun h => hne12 (by rw [← hq1e, ← hq2e, h])
    rw [e1, e2]
    exact ((paths_prefix_free_pairwise (.mk c0 w0 l r)).forall hsym hq1 hq2 hqne).1

/-- Witness for C5 at a two-symbol frequency table. -/
theorem claim5_witness :
    (∃ c, c < 256 ∧ 0 < (fun z => if z = 65 then 3 else if z = 66 then 1 else 0 : Nat → Nat) c) ∧
      ∃ t, buildHuffmanTree (fun z => if z = 65 then 3 else if z = 66 then 1 else 0) = some t ∧
        ∀ s1 s2, s1 < 256 → s2 < 256 →
          0 < (fun z => if z = 65 then 3 else if z = 66 then 1 else 0 : Nat → Nat) s1 →
          0 < (fun z => if z = 65 then 3 else if z = 66 then 1 else 0 : Nat → Nat) s2 →
          s1 ≠ s2 → isPrefB (codeTable t s1) (codeTable t s2) = false := by
  have hp : ∃ c, c < 256 ∧
      0 < (fun z => if z = 65 then 3 else if z = 66 then 1 else 0 : Nat → Nat) c :=
    ⟨65, by norm_num⟩
  exact ⟨hp, claim5_prefix_free _ hp⟩

/-! ### Claim C6: compressing N copies of one byte -/

theorem compressFile_eq (x : List Nat) :
    compressFile x = if x.length % 2 ^ 32 = 0 then none
      else if 2 ^ 31 ≤ x.length % 2 ^ 32 then none
      else match buildHuffmanTree (countFreq x) with
      | none => none
      | some root =>
        some { originalSize := x.length % 2 ^ 32
               compressedSize := (bitsToBytes (encodeBits (codeTable root) x)).length % 2 ^ 32
               frequencyCount := (presentList (countFreq x)).length
               paddingBits := 0
               freqTable := countFreq x
               payload := bitsToBytes (encodeBits (codeTable root) x) } := rfl

theorem countFreq_replicate (N c z : Nat) :
    countFreq (List.replicate N c) z = if z = c then N % 2 ^ 32 else 0 := by
  unfold countFreq
  rw [List.count_replicate]
  by_cases h : z = c
  · subst h
    simp
  · have hb : (c == z) = false := beq_eq_false_iff_ne.mpr (fun hh => h hh.symm)
    rw [hb]
    simp [h]

theorem filter_eq_singleton {p : Nat → Bool} {c : Nat} :
    ∀ (l : List Nat), l.Nodup → c ∈ l → (∀ i ∈ l, p i = true ↔ i = c) →
      l.filter p = [c] := by
  intro l
  induction l with
  | nil =>
    intro _ h
    simp at h
  | cons a t ih =>
    intro hnd hm hp
    by_cases hac : a = c
    · subst hac
      have hpa : p a = true := (hp a (by simp)).mpr rfl
      rw [List.filter_cons_of_pos hpa]
      have hrest : t.filter p = [] := by
        rw [List.filter_eq_nil_iff]
        intro i hi hpi
        have hieq : i = a := (hp i (by simp [hi])).mp hpi
        exact (List.nodup_cons.mp hnd).1 (hieq ▸ hi)
      rw [hrest]
    · have hmt : c ∈ t := by
        rcases List.mem_cons.mp hm with h | h
        · exact absurd h.symm hac
        · exact h
      have hpa : p a = false := by
        cases hpa' : p a with
        | false => rfl
        | true => exact absurd ((hp a (by simp)).mp hpa') hac
      rw [List.filter_cons_of_neg (by simp [hpa])]
      exact ih (List.nodup_cons.mp hnd).2 hmt (fun i hi => hp i (by simp [hi]))

theorem presentList_replicate {N c : Nat} (h1 : 1 ≤ N) (hc : c < 256) (hN : N < 2 ^ 32) :
    presentList (countFreq (List.replicate N c)) = [c] := by
  unfold presentList
  apply filter_eq_singleton (List.range 256) (List.nodup_range 256) (List.mem_range.mpr hc)
  intro i _
  rw [decide_eq_true_eq, countFreq_replicate]
  by_cases h : i = c
  · simp [h]
    omega
  · simp [h]

theorem codeTable_single (c w : Nat) :
    codeTable (.mk 0 w (.mk c w .nil .nil) .nil) c = [false] := by
  show (if c = c then [false] else (fun _ => ([] : List Bool)) c) = [false]
  simp

theorem encodeBits_replicate {tbl : Nat → List Bool} {c : Nat} (h : tbl c = [false]) :
    ∀ N, encodeBits tbl (List.replicate N c) = List.replicate N false := by
  intro N
  induction N with
  | zero => rfl
  | succ n ih =>
    rw [List.replicate_succ]
    show tbl c ++ encodeBits tbl (List.replicate n c) = _
    rw [h, ih, List.replicate_succ]
    rfl

/-- C6 (amended with the positive-`int` range bound): compressing `N ≥ 1`
copies of byte `c`, with `N` in the positive range of the 32-bit `int` byte
counter of `calculateFrequencies`, yields a header with `symbol_count = 1`,
a code table assigning `c` the single-bit code "0", and a bit-packed payload
of exactly `ceil(N/8)` bytes. -/
theorem claim6_single_symbol (N c : Nat) (h1 : 1 ≤ N) (hc : c < 256) (hN : N < 2 ^ 31) :
    ∃ a, compressFile (List.replicate N c) = some a ∧
      a.frequencyCount = 1 ∧
      (∃ t, buildHuffmanTree (countFreq (List.replicate N c)) = some t ∧
        (codeTable t c).length = 1) ∧
      a.payload.length = (N + 7) / 8 := by
  have hpl := presentList_replicate h1 hc (by omega)
  have hbt := buildHuffmanTree_single hpl
  have hct := codeTable_single c (countFreq (List.replicate N c) c)
  rw [compressFile_eq, if_neg (by simp; omega), if_neg (by simp; omega), hbt]
  refine ⟨_, rfl, ?_, ⟨_, rfl, by rw [hct]; rfl⟩, ?_⟩
  · show (presentList (countFreq (List.replicate N c))).length = 1
    rw [hpl]
    rfl
  · show (bitsToBytes (encodeBits _ (List.replicate N c))).length = (N + 7) / 8
    rw [encodeBits_replicate hct, bitsToBytes_length]
    simp

/-- Witness for C6 at N = 12, c = 65. -/
theorem claim6_witness :
    (1 ≤ 12 ∧ 65 < 256 ∧ 12 < 2 ^ 31) ∧
      ∃ a, compressFile (List.replicate 12 65) = some a ∧
        a.frequencyCount = 1 ∧
        (∃ t, buildHuffmanTree (countFreq (List.replicate 12 65)) = some t ∧
          (codeTable t 65).length = 1) ∧
        a.payload.length = (12 + 7) / 8 :=
  ⟨by norm_num, claim6_single_symbol 12 65 (by norm_num) (by norm_num) (by norm_num)⟩

/-- C6 counterexample to the unbounded claim: at `N = 2^31` the `int` byte
counter of `calculateFrequencies` (huffman.c line 186) overflows to a
negative value, the `originalSize < 0` check (line 481) fires, and
`compressFile` fails instead of producing the described archive. -/
theorem claim6_counterexample :
    1 ≤ 2 ^ 31 ∧ compressFile (List.replicate (2 ^ 31) 65) = none := by
  refine ⟨by norm_num, ?_⟩
  rw [compressFile_eq, if_neg (by rw [List.length_replicate]; omega),
    if_pos (by rw [List.length_replicate]; omega)]

/-! ### Claim C1: the compress/decompress round trip -/

theorem readU32_u32le_mod (v : Nat) : readU32 (u32le v) = v % 2 ^ 32 := by
  simp only [readU32, u32le, List.getD_cons_zero, List.getD_cons_succ]
  omega

theorem parseHeader_parts (m o cs fc pd : Nat) (rest : List Nat) :
    parseHeader (u32le m ++ u32le o ++ u32le cs ++ u32le fc ++ [pd] ++ rest) =
      some (readU32 (u32le m), readU32 (u32le o), readU32 (u32le cs),
        readU32 (u32le fc), pd, rest) := by
  show parseHeader (m % 256 :: m / 256 % 256 :: m / 65536 % 256 :: m / 16777216 % 256 ::
    o % 256 :: o / 256 % 256 :: o / 65536 % 256 :: o / 16777216 % 256 ::
    cs % 256 :: cs / 256 % 256 :: cs / 65536 % 256 :: cs / 16777216 % 256 ::
    fc % 256 :: fc / 256 % 256 :: fc / 65536 % 256 :: fc / 16777216 % 256 :: pd :: rest) = _
  unfold parseHeader
  rw [if_neg (by simp)]
  rfl

theorem decompressFile_fileBytes (a : Archive)
    (ho : a.originalSize < 2 ^ 32) (hcs : a.compressedSize < 2 ^ 32)
    (hfcb : a.frequencyCount < 2 ^ 32)
    (hfc : a.frequencyCount = (presentList a.freqTable).length)
    (hfbnd : ∀ c ∈ presentList a.freqTable, a.freqTable c < 2 ^ 32)
    (hzero : ∀ c, c ∉ presentList a.freqTable → a.freqTable c = 0) :
    decompressFile (fileBytes a) =
      match buildHuffmanTree a.freqTable with
      | none => DResult.err
      | some root =>
        match decodeAndWrite root (bytesToBits a.payload) a.originalSize a.paddingBits with
        | none => DResult.crash
        | some out => DResult.ok out := by
  have hfb : fileBytes a = u32le MAGIC ++ u32le a.originalSize ++ u32le a.compressedSize ++
      u32le a.frequencyCount ++ [a.paddingBits] ++ (freqBytes a.freqTable ++ a.payload) := by
    simp [fileBytes, List.append_assoc]
  obtain ⟨f2, hp, hchar⟩ := parseFreqs_spec a.freqTable (presentList a.freqTable)
    (fun _ => 0) a.payload hfbnd
  have hfeq : f2 = a.freqTable := by
    funext z
    rw [hchar z]
    by_cases hz : z ∈ presentList a.freqTable
    · simp [hz]
    · simp [hz, hzero z hz]
  have hfreq : parseFreqs a.frequencyCount (freqBytes a.freqTable ++ a.payload) (fun _ => 0) =
      some (a.freqTable, a.payload) := by
    rw [hfc]
    rw [show freqBytes a.freqTable =
      (presentList a.freqTable).flatMap fun c => c :: u32le (a.freqTable c) from
      flatMap_filter _ _ (List.range 256)]
    rw [hp, hfeq]
  unfold decompressFile
  rw [hfb]
  simp only [parseHeader_parts, readU32_u32le_mod]
  rw [Nat.mod_eq_of_lt ho, Nat.mod_eq_of_lt hfcb]
  rw [if_neg (by norm_num [MAGIC])]
  simp only [hfreq]

/-- C1 (amended with the positive-`int` size bound): for every non-empty
byte sequence `x` of length below 2^31 (the range in which the `int` byte
counter of `calculateFrequencies` stays positive), compressing `x` and then
decompressing the resulting file's bytes reproduces `x` exactly, byte for
byte. -/
theorem claim1_roundtrip (x : List Nat) (hne : x ≠ []) (hb : ∀ b ∈ x, b < 256)
    (hlen : x.length < 2 ^ 31) :
    ∃ a, compressFile x = some a ∧ decompressFile (fileBytes a) = DResult.ok x := by
  have hcf : ∀ c, countFreq x c = x.count c := by
    intro c
    unfold countFreq
    exact Nat.mod_eq_of_lt (lt_of_le_of_lt (List.count_le_length c x) (by omega))
  have hmemp : ∀ b ∈ x, b ∈ presentList (countFreq x) := by
    intro b hbx
    refine mem_presentList.mpr ⟨hb b hbx, ?_⟩
    rw [hcf]
    exact List.count_pos_iff.mpr hbx
  have hnep : presentList (countFreq x) ≠ [] := by
    match x, hne, hmemp with
    | b :: _, _, hmemp =>
      intro h
      have hh := hmemp b (by simp)
      rw [h] at hh
      simp at hh
  have hlz : ¬(x.length = 0) := fun h => hne (List.eq_nil_of_length_eq_zero h)
  have hbnd : ∀ c ∈ presentList (countFreq x), countFreq x c < 2 ^ 32 := by
    intro c _
    exact Nat.mod_lt _ (by norm_num)
  have hzero : ∀ c, c ∉ presentList (countFreq x) → countFreq x c = 0 := by
    intro c hc
    by_cases h256 : c < 256
    · by_contra hnz
      exact hc (mem_presentList.mpr ⟨h256, Nat.pos_of_ne_zero hnz⟩)
    · rw [hcf, List.count_eq_zero]
      intro hcx
      exact h256 (hb c hcx)
  have hos : x.length % 2 ^ 32 = x.length := Nat.mod_eq_of_lt (by omega)
  have hfcb : (presentList (countFreq x)).length < 2 ^ 32 :=
    lt_of_le_of_lt (le_trans (List.length_filter_le _ _) (by rw [List.length_range]))
      (by norm_num)
  rcases Nat.lt_or_ge (presentList (countFreq x)).length 2 with hone | htwo
  · -- exactly one distinct symbol
    have h0 : (presentList (countFreq x)).length ≠ 0 := fun h =>
      hnep (List.eq_nil_of_length_eq_zero h)
    have h1 : (presentList (countFreq x)).length = 1 := by omega
    obtain ⟨c0, hc0⟩ := List.length_eq_one.mp h1
    have hbt := buildHuffmanTree_single hc0
    have hall : ∀ b ∈ x, b = c0 := by
      intro b hbx
      have hh := hmemp b hbx
      rw [hc0] at hh
      simpa using hh
    have hxrep : x = List.replicate x.length c0 := List.eq_replicate_of_mem hall
    have hct := codeTable_single c0 (countFreq x c0)
    have henc : encodeBits
        (codeTable (.mk 0 (countFreq x c0) (.mk c0 (countFreq x c0) .nil .nil) .nil)) x =
        List.replicate x.length false := by
      have h2 := encodeBits_replicate hct x.length
      rw [← hxrep] at h2
      exact h2
    rw [compressFile_eq, if_neg (by rw [hos]; exact hlz), if_neg (by rw [hos]; omega), hbt]
    refine ⟨_, rfl, ?_⟩
    rw [decompressFile_fileBytes _ (by rw [hos]; exact lt_trans hlen (by norm_num))
      (Nat.mod_lt _ (by norm_num)) hfcb rfl hbnd hzero]
    rw [hbt, hos]
    show (match decodeAndWrite _ (bytesToBits (bitsToBytes (encodeBits _ x))) x.length 0 with
      | none => DResult.crash
      | some out => DResult.ok out) = DResult.ok x
    rw [bytesToBits_bitsToBytes, henc]
    rw [show List.replicate x.length false ++
        List.replicate ((8 - (List.replicate x.length false).length % 8) % 8) false =
        List.replicate (x.length + (8 - x.length % 8) % 8) false from by
      rw [List.length_replicate, List.replicate_add]]
    show (match decodeLoop (.mk 0 (countFreq x c0) (.mk c0 (countFreq x c0) .nil .nil) .nil)
        (.mk 0 (countFreq x c0) (.mk c0 (countFreq x c0) .nil .nil) .nil)
        (List.replicate (x.length + (8 - x.length % 8) % 8) false) x.length [] with
      | none => DResult.crash
      | some out => DResult.ok out) = DResult.ok x
    rw [decode_single c0 (countFreq x c0) x.length (x.length + (8 - x.length % 8) % 8) []
      (Nat.le_add_right _ _)]
    show DResult.ok ([].reverse ++ List.replicate x.length c0) = DResult.ok x
    rw [List.reverse_nil, List.nil_append, ← hxrep]
  · -- at least two distinct symbols
    obtain ⟨t, hbt, hwt, hpt⟩ := buildHuffmanTree_spec htwo
    have hlen2 : 2 ≤ (leafChars t).length := by
      rw [hpt.length_eq]
      omega
    obtain ⟨c0, w0, l, r, rfl, hint⟩ := internal_of_two_leaves hwt hlen2
    have hnd : (presentList (countFreq x)).Nodup :=
      (presentList_sorted _).imp (fun h => Nat.ne_of_lt h)
    have hndp : ((paths (.mk c0 w0 l r)).map Prod.fst).Nodup := by
      rw [paths_fst]
      exact (hpt.nodup_iff).mpr hnd
    have htbl : ∀ b ∈ x, (b, codeTable (.mk c0 w0 l r) b) ∈ paths (.mk c0 w0 l r) := by
      intro b hbx
      have hm : b ∈ (paths (.mk c0 w0 l r)).map Prod.fst := by
        rw [paths_fst]
        exact hpt.mem_iff.mpr (hmemp b hbx)
      obtain ⟨q, hq, hqe⟩ := List.mem_map.mp hm
      have hqm : (b, q.2) ∈ paths (.mk c0 w0 l r) := by
        rw [← hqe, Prod.mk.eta]
        exact hq
      rw [codeTable_lookup hint hndp hqm]
      exact hqm
    rw [compressFile_eq, if_neg (by rw [hos]; exact hlz), if_neg (by rw [hos]; omega), hbt]
    refine ⟨_, rfl, ?_⟩
    rw [decompressFile_fileBytes _ (by rw [hos]; exact lt_trans hlen (by norm_num))
      (Nat.mod_lt _ (by norm_num)) hfcb rfl hbnd hzero]
    rw [hbt, hos]
    show (match decodeAndWrite (.mk c0 w0 l r)
        (bytesToBits (bitsToBytes (encodeBits (codeTable (.mk c0 w0 l r)) x))) x.length 0 with
      | none => DResult.crash
      | some out => DResult.ok out) = DResult.ok x
    rw [bytesToBits_bitsToBytes]
    show (match decodeLoop (.mk c0 w0 l r) (.mk c0 w0 l r)
        (encodeBits (codeTable (.mk c0 w0 l r)) x ++
          List.replicate
            ((8 - (encodeBits (codeTable (.mk c0 w0 l r)) x).length % 8) % 8) false)
        x.length [] with
      | none => DResult.crash
      | some out => DResult.ok out) = DResult.ok x
    rw [decode_encode_loop hwt hint (codeTable (.mk c0 w0 l r)) x [] _ htbl]
    show DResult.ok ([].reverse ++ x) = DResult.ok x
    rw [List.reverse_nil, List.nil_append]

/-- Witness for C1 at the concrete input [65, 66, 65, 0]. -/
theorem claim1_witness :
    (([65, 66, 65, 0] : List Nat) ≠ [] ∧ (∀ b ∈ ([65, 66, 65, 0] : List Nat), b < 256) ∧
      ([65, 66, 65, 0] : List Nat).length < 2 ^ 31) ∧
      ∃ a, compressFile [65, 66, 65, 0] = some a ∧
        decompressFile (fileBytes a) = DResult.ok [65, 66, 65, 0] :=
  ⟨⟨by decide, by decide, by decide⟩,
    claim1_roundtrip [65, 66, 65, 0] (by decide) (by decide) (by decide)⟩

/-- C1 counterexample to the unbounded claim: for 2^31 repetitions of byte 0
(a perfectly good byte sequence), the `int` byte counter of
`calculateFrequencies` (huffman.c line 186) overflows to a negative value,
the `originalSize < 0` check (line 481) makes `compressFile` error out, and
no round trip reproduces the input. -/
theorem claim1_counterexample :
    List.replicate (2 ^ 31) 0 ≠ ([] : List Nat) ∧
      compressFile (List.replicate (2 ^ 31) 0) = none := by
  constructor
  · intro h
    have hh := congrArg List.length h
    rw [List.length_replicate, List.length_nil] at hh
    omega
  · rw [compressFile_eq, if_neg (by rw [List.length_replicate]; omega),
      if_pos (by rw [List.length_replicate]; omega)]

end Huffman
